import Mathlib

/-!
# go-httpstats: the metrics accumulator of `stats.go`

A shallow embedding of `stats.go` (package `httpstats`).

Modelling conventions.

* Go `int` / `int64` values are `Int` (the values of `int` are those of `IsGoInt`); the
  write cursor `reqIdx`, which only ever holds `0` or the result of
  `(reqIdx + 1) % len(requests)`, is a `Nat`.  Counter wrap-around (which needs `2^63`
  calls) is outside the model.
* `make` panics on a length beyond the runtime's allocation bound (`makeFloat64Data`);
  running out of physical memory is outside the model.
* `float64` latencies are rationals (`ℚ`), comparisons being exact.  `scan` and `Data` add
  and divide exactly; the rounded arithmetic of the code (`+=` and `/` on `float64`) is
  `addFloat64`, `divFloat64` and `averageFloat64`.  NaN and infinities are outside the
  model.
* A Go call either returns normally, returns a non-nil `error`, or panics: `Result`.
* The read/write lock and the atomics only serialise accesses; the embedding is the
  sequential semantics of one call at a time.
* The value drawn by `rand4HttpStats.Intn(m.factor)` is an explicit input of `add`.
* `Float64Data.Percentile` belongs to an external package and is a parameter of `Data`;
  `DataSt` threads the state through `Data`, the routine returning the slice it was given.
* `addTraced` is `add` with the lock operations and counter increments it completes
  logged in program order.
* A wrapped handler is the sequence of its `WriteHeader` calls, each with whether the
  handler recovers from a panic of that call; the embedded `http.ResponseWriter` and the
  measured time are parameters.
-/

namespace Httpstats

/-! ## Outcomes of a Go call -/

/-- Outcome of a Go call: normal return, a returned `error` (with its message), or a
run-time panic. -/
inductive Result (α : Type) where
  | ok (val : α) : Result α
  | err (msg : String) : Result α
  | panic : Result α
deriving DecidableEq

/-! ## Slices and maps -/

/-- Go index expression `xs[i]` on a slice: panics when `i` is out of range. -/
def sliceGet {α : Type} (xs : List α) : Int → Result α
  | Int.ofNat n =>
    match xs[n]? with
    | some v => .ok v
    | none => .panic
  | Int.negSucc _ => .panic

/-- Go assignment `xs[i] = v` on a slice: panics when `i` is out of range. -/
def sliceSet {α : Type} (xs : List α) (i : Int) (v : α) : Result (List α) :=
  match i with
  | Int.ofNat n => if n < xs.length then .ok (xs.set n v) else .panic
  | Int.negSucc _ => .panic

/-- The call `atomic.AddInt64(&xs[i], delta)`: the element is addressed (panic when out of
range) and incremented in place. -/
def atomicAddAt (xs : List Int) (i : Int) (delta : Int) : Result (List Int) :=
  match sliceGet xs i with
  | .ok old => sliceSet xs i (old + delta)
  | .err e => .err e
  | .panic => .panic

/-- Go map assignment `m[k] = v` on a map kept as an association list with unique keys. -/
def mapSet {κ ν : Type} [DecidableEq κ] : List (κ × ν) → κ → ν → List (κ × ν)
  | [], k, v => [(k, v)]
  | (k0, v0) :: rest, k, v =>
    if k0 = k then (k, v) :: rest else (k0, v0) :: mapSet rest k v

/-- Go map index expression `m[k]`: the zero value when the key is absent. -/
def mapGet {κ ν : Type} [DecidableEq κ] [Zero ν] : List (κ × ν) → κ → ν
  | [], _ => 0
  | (k0, v0) :: rest, k => if k0 = k then v0 else mapGet rest k

/-- The keys of a Go map. -/
def mapKeys {κ ν : Type} (m : List (κ × ν)) : List κ :=
  m.map Prod.fst

/-! ## Constants and types of `stats.go` -/

/-- Buffer size used by `New`. -/
def DefaultBufferSize : Int := 1000

/-- Sampling factor used by `New`. -/
def DefaultSamplingFactor : Int := 1

/-- The status codes reported individually (`http.StatusOK`, ..., `http.StatusGatewayTimeout`). -/
def httpStatuses : List Int := [200, 400, 401, 403, 404, 500, 501, 502, 503, 504]

/-- The percentile ranks reported. -/
def percents : List Int := [90, 95, 99]

/-- The constant `math.MaxFloat64`, that is `(2^53 - 1) * 2^971`. -/
def MaxFloat64 : ℚ := (2 ^ 53 - 1) * 2 ^ 971

/-- The struct `Metrics` (the lock `m` carries no data). -/
structure Metrics where
  count : Int
  statusCount : List Int
  requests : List ℚ
  factor : Int
  reqIdx : Nat
deriving DecidableEq

/-- The struct `RequestData`. -/
structure RequestData where
  Count : Int
  StatusCount : List (Int × Int)
deriving DecidableEq

/-- The struct `ResponseData`. -/
structure ResponseData where
  MaxTime : ℚ
  MinTime : ℚ
  AverageTime : ℚ
  PercentiledTime : List (Int × ℚ)
deriving DecidableEq

/-- The struct `Data`. -/
structure Data where
  Request : RequestData
  Response : ResponseData
deriving DecidableEq

/-! ## Construction -/

/-- The bound `maxAlloc` of the Go runtime on the bytes of one allocation, on 64-bit
platforms. -/
def maxAlloc : Int := 2 ^ 48

/-- The values of the Go type `int` on 64-bit platforms. -/
def IsGoInt (n : Int) : Prop :=
  -(2 ^ 63) ≤ n ∧ n < 2 ^ 63

instance (n : Int) : Decidable (IsGoInt n) := by
  unfold IsGoInt; exact inferInstance

/-- The call `make(stats.Float64Data, n)`: the runtime panics (`makeslice: len out of
range`) when `n` is negative or the `8 * n` bytes exceed `maxAlloc`; otherwise the slice
has `n` zero elements.  Running out of physical memory is outside the model. -/
def makeFloat64Data (n : Int) : Result (List ℚ) :=
  if n < 0 ∨ maxAlloc < 8 * n then .panic else .ok (List.replicate n.toNat 0)

/-- The function `NewCapa`.  The loop `statusCount[status] = 0` stores at the constant
indices of `httpStatuses`, all below the allocated length 1000. -/
def NewCapa (bufsize factor : Int) : Result Metrics :=
  if bufsize < 2 then
    .err "bufsize must be greater than or equal to 2"
  else if factor < 1 then
    .err "factor must be greater than 0"
  else
    let statusCount : List Int :=
      httpStatuses.foldl (fun sc status => sc.set status.toNat 0) (List.replicate 1000 0)
    match makeFloat64Data bufsize with
    | .ok requests =>
      .ok { count := 0
            statusCount := statusCount
            requests := requests
            factor := factor
            reqIdx := 0 }
    | .err e => .err e
    | .panic => .panic

/-- The function `New`. -/
def New : Result Metrics :=
  NewCapa DefaultBufferSize DefaultSamplingFactor

/-! ## Recording -/

/-- The method `insertRequestBuffer`.  After a successful store the slice is non-empty,
so the modulus is not zero. -/
def insertRequestBuffer (m : Metrics) (t : ℚ) : Result Metrics :=
  match sliceSet m.requests (Int.ofNat m.reqIdx) t with
  | .ok requests =>
    .ok { m with requests := requests, reqIdx := (m.reqIdx + 1) % m.requests.length }
  | .err e => .err e
  | .panic => .panic

/-- The call `rand4HttpStats.Intn(n)`: panics when `n <= 0`, otherwise returns the value
`draw` produced by the generator (which lies in `[0, n)`). -/
def Intn (n : Int) (draw : Int) : Result Int :=
  if n ≤ 0 then .panic else .ok draw

/-- The method `add`, reading `statusCode` from the recorder `r`; `draw` is the value
produced by the random generator in this call. -/
def add (m : Metrics) (statusCode : Int) (t : ℚ) (draw : Int) : Result Metrics :=
  match Intn m.factor draw with
  | .ok r =>
    if r = 0 then
      let m1 := { m with count := m.count + 1 }
      match atomicAddAt m1.statusCount statusCode 1 with
      | .ok statusCount => insertRequestBuffer { m1 with statusCount := statusCount } t
      | .err e => .err e
      | .panic => .panic
    else
      let m1 := { m with count := m.count + 1 }
      match atomicAddAt m1.statusCount statusCode 1 with
      | .ok statusCount => .ok { m1 with statusCount := statusCount }
      | .err e => .err e
      | .panic => .panic
  | .err e => .err e
  | .panic => .panic

/-- One recorded request: the status code, the latency in seconds and the value drawn
by the random generator during the call. -/
structure Call where
  statusCode : Int
  t : ℚ
  draw : Int
deriving DecidableEq

/-- A sequence of `add` calls, one after the other. -/
def addAll : Metrics → List Call → Result Metrics
  | m, [] => .ok m
  | m, c :: cs =>
    match add m c.statusCode c.t c.draw with
    | .ok m1 => addAll m1 cs
    | .err e => .err e
    | .panic => .panic

/-! ## Snapshot -/

/-- The accumulators of the first loop of `Data`. -/
structure Scan where
  totalResponseTime : ℚ
  maxTime : ℚ
  minTime : ℚ
deriving DecidableEq

/-- One iteration of the loop `for _, v := range m.requests` of `Data`. -/
def scanStep (s : Scan) (v : ℚ) : Scan :=
  { totalResponseTime := s.totalResponseTime + v
    minTime := if s.minTime > v then v else s.minTime
    maxTime := if s.maxTime < v then v else s.maxTime }

/-- The first loop of `Data`, from `totalResponseTime = 0`, `maxTime = 0` and
`minTime = math.MaxFloat64`; the sum is the exact one (`averageFloat64` is the rounded
computation). -/
def scan (requests : List ℚ) : Scan :=
  requests.foldl scanStep { totalResponseTime := 0, maxTime := 0, minTime := MaxFloat64 }

/-- The loop `for _, p := range percents` of `Data`: the first failing percentile ends
the call with its error. -/
def percentileLoop (Percentile : List ℚ → ℚ → Result ℚ) (requests : List ℚ) :
    List Int → List (Int × ℚ) → Result (List (Int × ℚ))
  | [], percentiledTime => .ok percentiledTime
  | p :: ps, percentiledTime =>
    match Percentile requests (p : ℚ) with
    | .ok v => percentileLoop Percentile requests ps (mapSet percentiledTime p v)
    | .err e => .err e
    | .panic => .panic

/-- The loop `for _, status := range httpStatuses` of `Data`. -/
def statusLoop (statusCount : List Int) :
    List Int → List (Int × Int) → Result (List (Int × Int))
  | [], out => .ok out
  | status :: rest, out =>
    match sliceGet statusCount status with
    | .ok c => statusLoop statusCount rest (mapSet out status c)
    | .err e => .err e
    | .panic => .panic

/-- The method `Metrics.Data`, with the external `Float64Data.Percentile` as a parameter. -/
def Metrics.Data (Percentile : List ℚ → ℚ → Result ℚ) (m : Metrics) :
    Result Httpstats.Data :=
  let bufsize : Int := m.requests.length
  let s := scan m.requests
  match percentileLoop Percentile m.requests percents [] with
  | .ok percentiledTime =>
    match statusLoop m.statusCount httpStatuses [] with
    | .ok statusCount =>
      .ok { Request := { Count := m.count, StatusCount := statusCount }
            Response := { MaxTime := s.maxTime
                          MinTime := s.minTime
                          AverageTime := s.totalResponseTime / (bufsize : ℚ)
                          PercentiledTime := percentiledTime } }
    | .err e => .err e
    | .panic => .panic
  | .err e => .err e
  | .panic => .panic

/-! ## The external percentile routine -/

/-- Modelled from the spec: the routine `Float64Data.Percentile` of the external package
`github.com/montanaflynn/stats`, which is not part of this repository.  Following
sections 4.4, 4.5 and 7 of the spec it fails on an empty input and on a rank outside
`[0, 100]`, and otherwise interpolates linearly between the two neighbours of the rank
position `rank / 100 * (len - 1)` in the sorted copy of the input. -/
def Percentile (input : List ℚ) (percent : ℚ) : Result ℚ :=
  if input.length = 0 then
    .err "Input must not be empty."
  else if percent < 0 ∨ percent > 100 then
    .err "Input is outside of range."
  else
    let c := input.insertionSort (fun a b => a ≤ b)
    let pos : ℚ := percent / 100 * ((c.length : ℚ) - 1)
    match sliceGet c ⌊pos⌋ with
    | .ok a =>
      if pos = ((⌊pos⌋ : Int) : ℚ) then .ok a
      else
        match sliceGet c (⌊pos⌋ + 1) with
        | .ok b => .ok (a + (pos - ((⌊pos⌋ : Int) : ℚ)) * (b - a))
        | .err e => .err e
        | .panic => .panic
    | .err e => .err e
    | .panic => .panic

/-- The percentile routine returns a value for every buffer `NewCapa` can allocate and
every rank `Data` asks for. -/
def PercentileOK (pct : List ℚ → ℚ → Result ℚ) : Prop :=
  ∀ xs : List ℚ, 2 ≤ xs.length → ∀ p ∈ percents, ∃ v, pct xs (p : ℚ) = .ok v

/-- The calls of a sequence are well formed for a Metrics with sampling factor `factor`:
the status code indexes the status array and the draw lies in `[0, factor)`. -/
def ValidCall (factor : Int) (c : Call) : Prop :=
  0 ≤ c.statusCode ∧ c.statusCode < 1000 ∧ 0 ≤ c.draw ∧ c.draw < factor

instance (factor : Int) (c : Call) : Decidable (ValidCall factor c) := by
  unfold ValidCall; exact inferInstance

/-- Well-formedness of a Metrics value: what `NewCapa` establishes and `add` keeps. -/
structure WF (m : Metrics) : Prop where
  statusLen : m.statusCount.length = 1000
  bufLen : 2 ≤ m.requests.length
  idxLt : m.reqIdx < m.requests.length
  factorPos : 1 ≤ m.factor

/-- The state `add` produces when it returns normally. -/
def addResult (m : Metrics) (statusCode : Int) (t : ℚ) (draw : Int) : Metrics :=
  { count := m.count + 1
    statusCount :=
      m.statusCount.set statusCode.toNat (m.statusCount.getD statusCode.toNat 0 + 1)
    requests := if draw = 0 then m.requests.set m.reqIdx t else m.requests
    factor := m.factor
    reqIdx := if draw = 0 then (m.reqIdx + 1) % m.requests.length else m.reqIdx }

/-- The state `NewCapa` returns for valid arguments. -/
def fresh (bufsize factor : Int) : Metrics :=
  { count := 0
    statusCount := List.replicate 1000 0
    requests := List.replicate bufsize.toNat 0
    factor := factor
    reqIdx := 0 }

/-- The state a sequence of `add` calls produces when every call returns normally. -/
def addAllResult (m : Metrics) (calls : List Call) : Metrics :=
  calls.foldl (fun acc c => addResult acc c.statusCode c.t c.draw) m

/-- Number of calls of a sequence made with status code `code`. -/
def callsWith (code : Int) (calls : List Call) : Nat :=
  (calls.filter (fun c => c.statusCode = code)).length

/-- The latencies of a sequence of calls that are sampled into the buffer (draw 0), in
call order. -/
def sampled (calls : List Call) : List ℚ :=
  (calls.filter (fun c => c.draw = 0)).map (fun c => c.t)

/-- Ring-buffer contents as the spec words them: slot `i` of a buffer of `n` slots holds
the latest inserted value `vs[j]` (0-based `j`) with `j % n = i`, or 0 when there is none. -/
def latestAt (n : Nat) (vs : List ℚ) (i : Nat) : ℚ :=
  match (List.range vs.length).reverse.find? (fun j => j % n = i) with
  | some j => vs.getD j 0
  | none => 0

/-- The percentile routine returns a value within the range of its input. -/
def PercentileInRange (pct : List ℚ → ℚ → Result ℚ) : Prop :=
  ∀ (xs : List ℚ) (p v : ℚ), pct xs p = .ok v → (∃ a ∈ xs, a ≤ v) ∧ (∃ b ∈ xs, v ≤ b)

/-- The percentile routine fails only on an empty input, on a rank outside `(0, 100]`, or
when `rank * len / 100` is not integral and not above 1. -/
def PercentileFailsOnly (pct : List ℚ → ℚ → Result ℚ) : Prop :=
  ∀ (xs : List ℚ) (p : ℚ), (¬ ∃ v, pct xs p = .ok v) →
    xs.length = 0 ∨ p ≤ 0 ∨ 100 < p ∨
      (p * (xs.length : ℚ) / 100 ≠ ((⌊p * (xs.length : ℚ) / 100⌋ : Int) : ℚ) ∧
        p * (xs.length : ℚ) / 100 ≤ 1)

/-! ## Snapshot, with the state threaded through -/

/-- The loop `for _, p := range percents` of `Data` with the state made explicit: the
percentile routine receives the slice `m.requests` and may store into its elements, so it
returns the slice as it leaves it together with its result. -/
def percentileLoopSt (pctSt : List ℚ → ℚ → List ℚ × Result ℚ) :
    Metrics → List Int → List (Int × ℚ) → Metrics × Result (List (Int × ℚ))
  | m, [], percentiledTime => (m, .ok percentiledTime)
  | m, p :: ps, percentiledTime =>
    match pctSt m.requests (p : ℚ) with
    | (requests, .ok v) =>
      percentileLoopSt pctSt { m with requests := requests } ps (mapSet percentiledTime p v)
    | (requests, .err e) => ({ m with requests := requests }, .err e)
    | (requests, .panic) => ({ m with requests := requests }, .panic)

/-- The method `Metrics.Data` as a state transformer: the Metrics it leaves behind and
what it returns.  Apart from the percentile calls every statement only reads `m`. -/
def Metrics.DataSt (pctSt : List ℚ → ℚ → List ℚ × Result ℚ) (m : Metrics) :
    Metrics × Result Httpstats.Data :=
  let bufsize : Int := m.requests.length
  let s := scan m.requests
  match percentileLoopSt pctSt m percents [] with
  | (m1, .ok percentiledTime) =>
    match statusLoop m1.statusCount httpStatuses [] with
    | .ok statusCount =>
      (m1, .ok { Request := { Count := m1.count, StatusCount := statusCount }
                 Response := { MaxTime := s.maxTime
                               MinTime := s.minTime
                               AverageTime := s.totalResponseTime / (bufsize : ℚ)
                               PercentiledTime := percentiledTime } })
    | .err e => (m1, .err e)
    | .panic => (m1, .panic)
  | (m1, .err e) => (m1, .err e)
  | (m1, .panic) => (m1, .panic)

/-- Modelled from the spec: the effect of `Float64Data.Percentile` of the external
statistics package on the slice it receives.  It sorts a copy, so the slice is returned as
it was, with the result of `Percentile`. -/
def PercentileSt (input : List ℚ) (percent : ℚ) : List ℚ × Result ℚ :=
  (input, Percentile input percent)

/-! ## The lock in `add` -/

/-- The operations of `add` that matter for the lock: `m.m.Lock()`, `m.m.Unlock()`, the two
`atomic.AddInt64` calls and the call of `insertRequestBuffer`. -/
inductive Event where
  | lock : Event
  | unlock : Event
  | addCount : Event
  | addStatus (statusCode : Int) : Event
  | insertRequest (t : ℚ) : Event
deriving DecidableEq

/-- The method `add` again, returning with its result the operations it completed, in
program order.  An operation that panics ends the call and is not logged. -/
def addTraced (m : Metrics) (statusCode : Int) (t : ℚ) (draw : Int) :
    List Event × Result Metrics :=
  match Intn m.factor draw with
  | .ok r =>
    if r = 0 then
      let m1 := { m with count := m.count + 1 }
      match atomicAddAt m1.statusCount statusCode 1 with
      | .ok statusCount =>
        match insertRequestBuffer { m1 with statusCount := statusCount } t with
        | .ok m2 =>
          ([.lock, .addCount, .addStatus statusCode, .insertRequest t, .unlock], .ok m2)
        | .err e => ([.lock, .addCount, .addStatus statusCode], .err e)
        | .panic => ([.lock, .addCount, .addStatus statusCode], .panic)
      | .err e => ([.lock, .addCount], .err e)
      | .panic => ([.lock, .addCount], .panic)
    else
      let m1 := { m with count := m.count + 1 }
      match atomicAddAt m1.statusCount statusCode 1 with
      | .ok statusCount =>
        ([.addCount, .addStatus statusCode], .ok { m1 with statusCount := statusCount })
      | .err e => ([.addCount], .err e)
      | .panic => ([.addCount], .panic)
  | .err e => ([], .err e)
  | .panic => ([], .panic)

/-- Whether every counter increment of a sequence of operations is performed while the
lock is not held; `held` tells whether the lock is held before the first operation. -/
def incrementsUnlocked : Bool → List Event → Bool
  | _, [] => true
  | _, .lock :: es => incrementsUnlocked true es
  | _, .unlock :: es => incrementsUnlocked false es
  | held, .addCount :: es => !held && incrementsUnlocked held es
  | held, .addStatus _ :: es => !held && incrementsUnlocked held es
  | held, .insertRequest _ :: es => incrementsUnlocked held es

/-! ## The handler wrapper -/

/-- The struct `statusRecorder`; the embedded `http.ResponseWriter` is external. -/
structure statusRecorder where
  statusCode : Int
deriving DecidableEq

/-- One call `rw.WriteHeader(code)` made by a wrapped handler; `recovers` tells whether
the handler recovers when that call panics and goes on. -/
structure HandlerCall where
  code : Int
  recovers : Bool
deriving DecidableEq

/-- The method `statusRecorder.WriteHeader`: the code is stored first, then passed to the
embedded writer; `accepts` tells whether the writer's `WriteHeader` returns for a code or
panics.  The recorder is returned as the call leaves it, also when the writer panics. -/
def statusRecorder.WriteHeader (accepts : Int → Bool) (r : statusRecorder)
    (statusCode : Int) : statusRecorder × Result Unit :=
  let r1 : statusRecorder := { r with statusCode := statusCode }
  (r1, if accepts statusCode then .ok () else .panic)

/-- The call `h.ServeHTTP(rw, r)` of a wrapped handler, seen from the recorder: the
handler is the sequence of its calls of `rw.WriteHeader` (its other calls go to the
embedded writer and leave the recorder alone).  It returns after its last call, unless a
call panics and is not recovered. -/
def ServeHTTP (accepts : Int → Bool) :
    List HandlerCall → statusRecorder → statusRecorder × Result Unit
  | [], rw => (rw, .ok ())
  | c :: rest, rw =>
    match rw.WriteHeader accepts c.code with
    | (rw1, .ok _) => ServeHTTP accepts rest rw1
    | (rw1, .panic) => if c.recovers then ServeHTTP accepts rest rw1 else (rw1, .panic)
    | (rw1, .err e) => (rw1, .err e)

/-- The handler returned by `WrapHandleFunc`, serving one request: `elapsed` is
`after.Sub(before).Seconds()` and `draw` the value drawn inside `add`.  A panic of the
wrapped handler leaves the function before `add`. -/
def WrapHandleFunc (m : Metrics) (accepts : Int → Bool) (h : List HandlerCall)
    (elapsed : ℚ) (draw : Int) : Result Metrics :=
  let rw : statusRecorder := { statusCode := 200 }
  match ServeHTTP accepts h rw with
  | (rw1, .ok _) => add m rw1.statusCode elapsed draw
  | (_, .err e) => .err e
  | (_, .panic) => .panic

/-- The code a returning handler leaves in the recorder: that of its last `WriteHeader`
call, or 200 when it made none. -/
def lastCode (h : List HandlerCall) : Int :=
  (h.map (fun c => c.code)).getLast?.getD 200

/-! ## The arithmetic of `float64` -/

/-- Rounding of a real number to the nearest integer, ties going to the even one. -/
def roundHalfEven (y : ℚ) : Int :=
  if y - (⌊y⌋ : Int) < 1 / 2 then ⌊y⌋
  else if 1 / 2 < y - (⌊y⌋ : Int) then ⌊y⌋ + 1
  else if ⌊y⌋ % 2 = 0 then ⌊y⌋
  else ⌊y⌋ + 1

/-- The `float64` (IEEE 754 binary64, round to nearest, ties to even) nearest to a real
number: 53 significant bits, the unit in the last place never below `2^-1074`.  Results
beyond `math.MaxFloat64`, which are infinities in Go, are outside the model. -/
def roundFloat64 (x : ℚ) : ℚ :=
  if x = 0 then 0
  else (roundHalfEven (x / 2 ^ (max (Int.log 2 |x| - 52) (-1074))) : ℚ)
    * 2 ^ (max (Int.log 2 |x| - 52) (-1074))

/-- The Go expression `a + b` on `float64` operands. -/
def addFloat64 (a b : ℚ) : ℚ :=
  roundFloat64 (a + b)

/-- The Go expression `a / b` on `float64` operands (`b` not zero). -/
def divFloat64 (a b : ℚ) : ℚ :=
  roundFloat64 (a / b)

/-- The value `totalResponseTime / float64(bufsize)` that `Data` stores in `AverageTime`,
with the rounding of every `totalResponseTime += v`, of the conversion and of the
division. -/
def averageFloat64 (requests : List ℚ) : ℚ :=
  divFloat64 (requests.foldl addFloat64 0) (roundFloat64 (requests.length : ℚ))

/-- The `float64` nearest to 0.1, that is `3602879701896397 / 2^55`. -/
def float64Tenth : ℚ := 3602879701896397 / 36028797018963968

/-! ## Slices -/

theorem sliceGet_ok (xs : List Int) (i : Int) (h0 : 0 ≤ i) (h1 : i < xs.length) :
    sliceGet xs i = .ok (xs.getD i.toNat 0) := by
  cases i with
  | ofNat n =>
    have hn : n < xs.length := by
      have h2 : (n : Int) < xs.length := h1
      exact_mod_cast h2
    simp [sliceGet, List.getD, List.getElem?_eq_getElem hn]
  | negSucc n => exact absurd h0 (by simp)

theorem sliceGet_panic {α : Type} (xs : List α) (i : Int)
    (h : i < 0 ∨ (xs.length : Int) ≤ i) : sliceGet xs i = .panic := by
  cases i with
  | ofNat n =>
    have hn : xs.length ≤ n := by
      rcases h with h | h
      · exact absurd h (by simp)
      · have h2 : (xs.length : Int) ≤ (n : Int) := h
        exact_mod_cast h2
    simp [sliceGet, List.getElem?_eq_none hn]
  | negSucc n => rfl

theorem sliceSet_ok {α : Type} (xs : List α) (i : Int) (v : α) (h0 : 0 ≤ i)
    (h1 : i < xs.length) : sliceSet xs i v = .ok (xs.set i.toNat v) := by
  cases i with
  | ofNat n =>
    have hn : n < xs.length := by
      have h2 : (n : Int) < xs.length := h1
      exact_mod_cast h2
    simp [sliceSet, hn]
  | negSucc n => exact absurd h0 (by simp)

theorem sliceSet_panic {α : Type} (xs : List α) (i : Int) (v : α)
    (h : i < 0 ∨ (xs.length : Int) ≤ i) : sliceSet xs i v = .panic := by
  cases i with
  | ofNat n =>
    have hn : ¬ n < xs.length := by
      rcases h with h | h
      · exact absurd h (by simp)
      · have h2 : (xs.length : Int) ≤ (n : Int) := h
        have : xs.length ≤ n := by exact_mod_cast h2
        omega
    simp [sliceSet, hn]
  | negSucc n => rfl

theorem sliceGet_returns {α : Type} (xs : List α) (i : Int) (h0 : 0 ≤ i)
    (h1 : i < xs.length) : ∃ v, sliceGet xs i = .ok v := by
  cases i with
  | ofNat n =>
    have hn : n < xs.length := by
      have h2 : (n : Int) < xs.length := h1
      exact_mod_cast h2
    exact ⟨xs[n], by simp [sliceGet, List.getElem?_eq_getElem hn]⟩
  | negSucc n => exact absurd h0 (by simp)

theorem atomicAddAt_ok (xs : List Int) (i : Int) (h0 : 0 ≤ i) (h1 : i < xs.length) :
    atomicAddAt xs i 1 = .ok (xs.set i.toNat (xs.getD i.toNat 0 + 1)) := by
  simp [atomicAddAt, sliceGet_ok xs i h0 h1, sliceSet_ok xs i _ h0 h1]

theorem atomicAddAt_panic (xs : List Int) (i : Int)
    (h : i < 0 ∨ (xs.length : Int) ≤ i) : atomicAddAt xs i 1 = .panic := by
  simp [atomicAddAt, sliceGet_panic xs i h]

/-! ## Construction -/

theorem set_replicate_self {α : Type} (n i : Nat) (a : α) :
    (List.replicate n a).set i a = List.replicate n a := by
  induction n generalizing i with
  | zero => simp
  | succ n ih => cases i <;> simp [List.replicate_succ, ih]

theorem statusCount_init :
    httpStatuses.foldl (fun sc status => sc.set status.toNat 0) (List.replicate 1000 (0 : Int))
      = List.replicate 1000 0 := by
  simp only [httpStatuses, List.foldl_cons, List.foldl_nil, set_replicate_self]

theorem NewCapa_ok (bufsize factor : Int) (hb : 2 ≤ bufsize) (hf : 1 ≤ factor)
    (hmax : 8 * bufsize ≤ maxAlloc) :
    NewCapa bufsize factor = .ok (fresh bufsize factor) := by
  have h1 : ¬ bufsize < 2 := by omega
  have h2 : ¬ factor < 1 := by omega
  have h3 : ¬ (bufsize < 0 ∨ maxAlloc < 8 * bufsize) := by
    rintro (h | h) <;> omega
  simp only [NewCapa, makeFloat64Data, h1, h2, h3, if_false, statusCount_init, fresh]

theorem NewCapa_panic (bufsize factor : Int) (hb : 2 ≤ bufsize) (hf : 1 ≤ factor)
    (hmax : maxAlloc < 8 * bufsize) : NewCapa bufsize factor = .panic := by
  have h1 : ¬ bufsize < 2 := by omega
  have h2 : ¬ factor < 1 := by omega
  have h3 : bufsize < 0 ∨ maxAlloc < 8 * bufsize := Or.inr hmax
  simp only [NewCapa, makeFloat64Data, h1, h2, h3, if_false, if_true]

theorem NewCapa_eq_ok (bufsize factor : Int) (m : Metrics)
    (h : NewCapa bufsize factor = .ok m) :
    2 ≤ bufsize ∧ 1 ≤ factor ∧ m = fresh bufsize factor := by
  by_cases h1 : bufsize < 2
  · simp [NewCapa, h1] at h
  · by_cases h2 : factor < 1
    · simp [NewCapa, h1, h2] at h
    · have hb : 2 ≤ bufsize := by omega
      have hf : 1 ≤ factor := by omega
      by_cases h3 : maxAlloc < 8 * bufsize
      · rw [NewCapa_panic bufsize factor hb hf h3] at h
        exact Result.noConfusion h
      · rw [NewCapa_ok bufsize factor hb hf (by omega)] at h
        exact ⟨hb, hf, (Result.ok.inj h).symm⟩

theorem fresh_WF (bufsize factor : Int) (hb : 2 ≤ bufsize) (hf : 1 ≤ factor) :
    WF (fresh bufsize factor) := by
  have h2 : 2 ≤ bufsize.toNat := by omega
  refine ⟨?_, ?_, ?_, hf⟩
  · simp only [fresh, List.length_replicate]
  · simp only [fresh, List.length_replicate]
    exact h2
  · simp only [fresh, List.length_replicate]
    omega

/-! ## Recording -/

theorem insertRequestBuffer_ok (m : Metrics) (t : ℚ) (h : m.reqIdx < m.requests.length) :
    insertRequestBuffer m t =
      .ok { m with requests := m.requests.set m.reqIdx t
                   reqIdx := (m.reqIdx + 1) % m.requests.length } := by
  simp [insertRequestBuffer, sliceSet, h]

theorem add_ok (m : Metrics) (statusCode : Int) (t : ℚ) (draw : Int) (hm : WF m)
    (h0 : 0 ≤ statusCode) (h1 : statusCode < 1000) :
    add m statusCode t draw = .ok (addResult m statusCode t draw) := by
  have hf : ¬ m.factor ≤ 0 := by have := hm.factorPos; omega
  have hlen : statusCode < (m.statusCount.length : Int) := by rw [hm.statusLen]; exact h1
  by_cases hd : draw = 0
  · simp [add, Intn, hf, hd, atomicAddAt_ok m.statusCount statusCode h0 hlen,
      insertRequestBuffer_ok, hm.idxLt, addResult]
  · simp [add, Intn, hf, hd, atomicAddAt_ok m.statusCount statusCode h0 hlen, addResult]

theorem add_panic (m : Metrics) (statusCode : Int) (t : ℚ) (draw : Int) (hm : WF m)
    (h : statusCode < 0 ∨ 1000 ≤ statusCode) : add m statusCode t draw = .panic := by
  have hf : ¬ m.factor ≤ 0 := by have := hm.factorPos; omega
  have hlen : statusCode < 0 ∨ (m.statusCount.length : Int) ≤ statusCode := by
    rw [hm.statusLen]; exact h
  by_cases hd : draw = 0
  · simp [add, Intn, hf, hd, atomicAddAt_panic m.statusCount statusCode hlen]
  · simp [add, Intn, hf, hd, atomicAddAt_panic m.statusCount statusCode hlen]

theorem addResult_WF (m : Metrics) (statusCode : Int) (t : ℚ) (draw : Int) (hm : WF m) :
    WF (addResult m statusCode t draw) := by
  have h2 := hm.bufLen
  refine ⟨by simp [addResult, hm.statusLen], ?_, ?_, hm.factorPos⟩
  · by_cases hd : draw = 0 <;> simp [addResult, hd, h2]
  · by_cases hd : draw = 0
    · simp only [addResult, hd, if_true, List.length_set]
      exact Nat.mod_lt _ (by omega)
    · simp only [addResult, hd, if_false]
      exact hm.idxLt

theorem addResult_factor (m : Metrics) (statusCode : Int) (t : ℚ) (draw : Int) :
    (addResult m statusCode t draw).factor = m.factor := rfl

theorem addAllResult_factor (m : Metrics) (calls : List Call) :
    (addAllResult m calls).factor = m.factor := by
  induction calls generalizing m with
  | nil => rfl
  | cons c cs ih =>
    show (addAllResult (addResult m c.statusCode c.t c.draw) cs).factor = m.factor
    rw [ih]; rfl

theorem addAllResult_WF (m : Metrics) (calls : List Call) (hm : WF m) :
    WF (addAllResult m calls) := by
  induction calls generalizing m with
  | nil => exact hm
  | cons c cs ih => exact ih _ (addResult_WF m c.statusCode c.t c.draw hm)

theorem addAll_ok (m : Metrics) (calls : List Call) (hm : WF m)
    (hc : ∀ c ∈ calls, 0 ≤ c.statusCode ∧ c.statusCode < 1000) :
    addAll m calls = .ok (addAllResult m calls) := by
  induction calls generalizing m with
  | nil => rfl
  | cons c cs ih =>
    have h := hc c (List.mem_cons_self c cs)
    simp only [addAll, add_ok m c.statusCode c.t c.draw hm h.1 h.2]
    exact ih _ (addResult_WF m c.statusCode c.t c.draw hm)
      (fun k hk => hc k (List.mem_cons_of_mem c hk))

theorem addAllResult_count (m : Metrics) (calls : List Call) :
    (addAllResult m calls).count = m.count + calls.length := by
  induction calls generalizing m with
  | nil => simp [addAllResult]
  | cons c cs ih =>
    show (addAllResult (addResult m c.statusCode c.t c.draw) cs).count = _
    rw [ih]
    simp [addResult]
    ring

theorem addResult_statusCount_getD (m : Metrics) (statusCode : Int) (t : ℚ) (draw : Int)
    (code : Int) (h0 : 0 ≤ statusCode) (h1 : statusCode < m.statusCount.length)
    (hc : 0 ≤ code) :
    (addResult m statusCode t draw).statusCount.getD code.toNat 0
      = m.statusCount.getD code.toNat 0 + (if statusCode = code then 1 else 0) := by
  have hlt : statusCode.toNat < m.statusCount.length := by omega
  simp only [addResult, List.getD_eq_getElem?_getD, List.getElem?_set]
  by_cases h : statusCode = code
  · subst h
    simp [hlt]
  · have hne : statusCode.toNat ≠ code.toNat := by omega
    simp [h, hne]

theorem callsWith_cons (code : Int) (c : Call) (cs : List Call) :
    callsWith code (c :: cs) = (if c.statusCode = code then 1 else 0) + callsWith code cs := by
  by_cases h : c.statusCode = code
  · simp [callsWith, List.filter_cons, h]; omega
  · simp [callsWith, List.filter_cons, h]

theorem addAllResult_statusCount (m : Metrics) (calls : List Call) (code : Int)
    (hm : WF m) (hc : ∀ c ∈ calls, 0 ≤ c.statusCode ∧ c.statusCode < 1000)
    (hcode : 0 ≤ code) :
    (addAllResult m calls).statusCount.getD code.toNat 0
      = m.statusCount.getD code.toNat 0 + callsWith code calls := by
  induction calls generalizing m with
  | nil => simp [addAllResult, callsWith]
  | cons c cs ih =>
    have h := hc c (List.mem_cons_self c cs)
    have hlen : c.statusCode < (m.statusCount.length : Int) := by rw [hm.statusLen]; exact h.2
    show (addAllResult (addResult m c.statusCode c.t c.draw) cs).statusCount.getD _ 0 = _
    rw [ih _ (addResult_WF m c.statusCode c.t c.draw hm)
      (fun k hk => hc k (List.mem_cons_of_mem c hk)),
      addResult_statusCount_getD m c.statusCode c.t c.draw code h.1 hlen hcode,
      callsWith_cons]
    by_cases hk : c.statusCode = code
    · simp [hk]; ring
    · simp [hk]

/-! ## Snapshot -/

theorem statusLoop_ok (statusCount : List Int) (h : statusCount.length = 1000) :
    statusLoop statusCount httpStatuses []
      = .ok (httpStatuses.map (fun status => (status, statusCount.getD status.toNat 0))) := by
  have g : ∀ i : Int, 0 ≤ i → i < 1000 →
      sliceGet statusCount i = .ok (statusCount.getD i.toNat 0) := by
    intro i h0 h1
    exact sliceGet_ok statusCount i h0 (by rw [h]; exact h1)
  simp only [httpStatuses, statusLoop, g 200 (by decide) (by decide),
    g 400 (by decide) (by decide), g 401 (by decide) (by decide),
    g 403 (by decide) (by decide), g 404 (by decide) (by decide),
    g 500 (by decide) (by decide), g 501 (by decide) (by decide),
    g 502 (by decide) (by decide), g 503 (by decide) (by decide),
    g 504 (by decide) (by decide)]
  simp [mapSet]

/-- The snapshot `Data` returns on a well-formed state when the percentile routine
returns `v90`, `v95` and `v99`. -/
theorem Data_ok (pct : List ℚ → ℚ → Result ℚ) (m : Metrics) (hm : WF m)
    (hp : PercentileOK pct) :
    ∃ v90 v95 v99 : ℚ,
      m.Data pct = .ok
        { Request :=
            { Count := m.count
              StatusCount :=
                httpStatuses.map (fun status => (status, m.statusCount.getD status.toNat 0)) }
          Response :=
            { MaxTime := (scan m.requests).maxTime
              MinTime := (scan m.requests).minTime
              AverageTime := (scan m.requests).totalResponseTime / (m.requests.length : ℚ)
              PercentiledTime := [(90, v90), (95, v95), (99, v99)] } } := by
  obtain ⟨v90, h90⟩ := hp m.requests hm.bufLen 90 (by decide)
  obtain ⟨v95, h95⟩ := hp m.requests hm.bufLen 95 (by decide)
  obtain ⟨v99, h99⟩ := hp m.requests hm.bufLen 99 (by decide)
  refine ⟨v90, v95, v99, ?_⟩
  have hl : percentileLoop pct m.requests percents []
      = .ok [(90, v90), (95, v95), (99, v99)] := by
    simp only [percents, percentileLoop, h90, h95, h99]
    simp [mapSet]
  simp only [Metrics.Data, hl, statusLoop_ok m.statusCount hm.statusLen]
  simp

theorem mapGet_map_self (f : Int → Int) (l : List Int) (k : Int) :
    mapGet (l.map (fun status => (status, f status))) k = if k ∈ l then f k else 0 := by
  induction l with
  | nil => simp [mapGet]
  | cons x xs ih =>
    by_cases h : x = k
    · subst h
      simp [mapGet]
    · have h2 : ¬ k = x := fun e => h e.symm
      simp [mapGet, h, h2, ih]

theorem mapKeys_map_self (f : Int → Int) (l : List Int) :
    mapKeys (l.map (fun status => (status, f status))) = l := by
  induction l with
  | nil => rfl
  | cons x xs ih => simpa [mapKeys] using ih

/-! ## The percentile routine -/

/-- The modelled routine returns a value for every non-empty input and every rank in
`[0, 100]`. -/
theorem Percentile_returns (xs : List ℚ) (p : ℚ) (hne : xs.length ≠ 0) (h0 : 0 ≤ p)
    (h1 : p ≤ 100) : ∃ v, Percentile xs p = .ok v := by
  have hlen1 : (1 : ℚ) ≤ (xs.length : ℚ) := by
    have : 1 ≤ xs.length := Nat.pos_of_ne_zero hne
    exact_mod_cast this
  have hrange : ¬ (p < 0 ∨ p > 100) := by
    rintro (h | h) <;> linarith
  have hsl : (xs.insertionSort (fun a b => a ≤ b)).length = xs.length :=
    List.length_insertionSort _ xs
  have hpos0 : 0 ≤ p / 100 * ((xs.length : ℚ) - 1) :=
    mul_nonneg (by linarith) (by linarith)
  have hposle : p / 100 * ((xs.length : ℚ) - 1) ≤ (xs.length : ℚ) - 1 := by
    have h2 : p / 100 ≤ 1 := by linarith
    calc p / 100 * ((xs.length : ℚ) - 1) ≤ 1 * ((xs.length : ℚ) - 1) :=
          mul_le_mul_of_nonneg_right h2 (by linarith)
      _ = (xs.length : ℚ) - 1 := one_mul _
  have hfl0 : 0 ≤ ⌊p / 100 * ((xs.length : ℚ) - 1)⌋ := Int.floor_nonneg.mpr hpos0
  have hflle : ((⌊p / 100 * ((xs.length : ℚ) - 1)⌋ : Int) : ℚ)
      ≤ p / 100 * ((xs.length : ℚ) - 1) := Int.floor_le _
  have hfl1 : ⌊p / 100 * ((xs.length : ℚ) - 1)⌋ ≤ (xs.length : Int) - 1 := by
    have : ((⌊p / 100 * ((xs.length : ℚ) - 1)⌋ : Int) : ℚ) ≤ (((xs.length : Int) - 1 : Int) : ℚ) := by
      push_cast
      linarith
    exact_mod_cast this
  obtain ⟨a, ha⟩ := sliceGet_returns (xs.insertionSort (fun a b => a ≤ b))
    ⌊p / 100 * ((xs.length : ℚ) - 1)⌋ hfl0 (by rw [hsl]; omega)
  simp only [Percentile, if_neg hne, if_neg hrange, hsl, ha]
  by_cases hint : p / 100 * ((xs.length : ℚ) - 1)
      = ((⌊p / 100 * ((xs.length : ℚ) - 1)⌋ : Int) : ℚ)
  · rw [if_pos hint]
    exact ⟨a, rfl⟩
  · rw [if_neg hint]
    have hlt : ((⌊p / 100 * ((xs.length : ℚ) - 1)⌋ : Int) : ℚ)
        < p / 100 * ((xs.length : ℚ) - 1) := lt_of_le_of_ne hflle (fun e => hint e.symm)
    have hfl2 : ⌊p / 100 * ((xs.length : ℚ) - 1)⌋ < (xs.length : Int) - 1 := by
      have : ((⌊p / 100 * ((xs.length : ℚ) - 1)⌋ : Int) : ℚ)
          < (((xs.length : Int) - 1 : Int) : ℚ) := by
        push_cast
        linarith
      exact_mod_cast this
    obtain ⟨b, hb⟩ := sliceGet_returns (xs.insertionSort (fun a b => a ≤ b))
      (⌊p / 100 * ((xs.length : ℚ) - 1)⌋ + 1) (by omega) (by rw [hsl]; omega)
    rw [hb]
    exact ⟨_, rfl⟩

theorem Percentile_ok : PercentileOK Percentile := by
  intro xs hlen p hp
  have hp2 : (90 : ℚ) ≤ (p : ℚ) ∧ (p : ℚ) ≤ 99 := by
    simp only [percents, List.mem_cons, List.mem_singleton, List.mem_nil_iff, or_false] at hp
    rcases hp with rfl | rfl | rfl <;> norm_num
  exact Percentile_returns xs (p : ℚ) (by omega) (by linarith [hp2.1]) (by linarith [hp2.2])

/-! ## The ring buffer -/

theorem set_take_succ {α : Type} (xs : List α) (c : Nat) (v : α) (h : c < xs.length) :
    (xs.set c v).take (c + 1) = xs.take c ++ [v] := by
  induction xs generalizing c with
  | nil => exact absurd h (by simp)
  | cons x xs ih =>
    cases c with
    | zero => simp
    | succ c =>
      have h2 : c < xs.length := by simpa using h
      simp [ih c h2]

theorem set_drop_succ {α : Type} (xs : List α) (c : Nat) (v : α) :
    (xs.set c v).drop (c + 1) = xs.drop (c + 1) := by
  induction xs generalizing c with
  | nil => simp
  | cons x xs ih =>
    cases c with
    | zero => simp
    | succ c => simp [ih c]

theorem rotate_set_succ (xs : List ℚ) (c : Nat) (v : ℚ) (h : c < xs.length) :
    (xs.set c v).rotate ((c + 1) % xs.length) = (xs.rotate c).tail ++ [v] := by
  have h1 : (xs.set c v).rotate ((c + 1) % xs.length) = (xs.set c v).rotate (c + 1) := by
    have := List.rotate_mod (xs.set c v) (c + 1)
    rwa [List.length_set] at this
  rw [h1, List.rotate_eq_drop_append_take (by rw [List.length_set]; omega),
    List.rotate_eq_drop_append_take (by omega), set_take_succ xs c v h, set_drop_succ,
    List.drop_eq_getElem_cons h, List.cons_append, List.tail_cons, List.append_assoc]

theorem addAllResult_snoc (m : Metrics) (cs : List Call) (c : Call) :
    addAllResult m (cs ++ [c]) = addResult (addAllResult m cs) c.statusCode c.t c.draw := by
  simp [addAllResult, List.foldl_append]

theorem sampled_snoc (cs : List Call) (c : Call) :
    sampled (cs ++ [c]) = if c.draw = 0 then sampled cs ++ [c.t] else sampled cs := by
  by_cases h : c.draw = 0 <;> simp [sampled, List.filter_append, List.filter_cons, h]

theorem addAllResult_requests_length (m : Metrics) (calls : List Call) :
    (addAllResult m calls).requests.length = m.requests.length := by
  induction calls generalizing m with
  | nil => rfl
  | cons c cs ih =>
    show (addAllResult (addResult m c.statusCode c.t c.draw) cs).requests.length = _
    rw [ih]
    by_cases hd : c.draw = 0 <;> simp [addResult, hd]

/-- The write cursor counts the sampled latencies modulo the capacity. -/
theorem addAllResult_reqIdx (bufsize factor : Int) (calls : List Call) :
    (addAllResult (fresh bufsize factor) calls).reqIdx
      = (sampled calls).length % bufsize.toNat := by
  induction calls using List.reverseRecOn with
  | nil =>
    show 0 = 0 % bufsize.toNat
    simp
  | append_singleton cs c ih =>
    have hlen : (addAllResult (fresh bufsize factor) cs).requests.length = bufsize.toNat := by
      rw [addAllResult_requests_length]
      simp only [fresh, List.length_replicate]
    rw [addAllResult_snoc, sampled_snoc]
    by_cases hd : c.draw = 0
    · rw [if_pos hd]
      simp only [addResult, if_pos hd, List.length_append, List.length_singleton]
      rw [ih, hlen, Nat.mod_add_mod]
    · rw [if_neg hd]
      simp only [addResult, if_neg hd]
      exact ih

/-- Read from the cursor onward, the buffer is the last `bufsize` elements of the zero
fill followed by the sampled latencies, oldest first. -/
theorem addAllResult_rotate (bufsize factor : Int) (calls : List Call) (hb : 2 ≤ bufsize) :
    (addAllResult (fresh bufsize factor) calls).requests.rotate
        (addAllResult (fresh bufsize factor) calls).reqIdx
      = (List.replicate bufsize.toNat (0 : ℚ) ++ sampled calls).drop (sampled calls).length := by
  induction calls using List.reverseRecOn with
  | nil =>
    simp only [addAllResult, List.foldl_nil, fresh, sampled, List.filter_nil, List.map_nil,
      List.length_nil, List.append_nil, List.drop_zero, List.rotate_zero]
  | append_singleton cs c ih =>
    have hlen : (addAllResult (fresh bufsize factor) cs).requests.length = bufsize.toNat := by
      rw [addAllResult_requests_length]
      simp only [fresh, List.length_replicate]
    have hn : 2 ≤ bufsize.toNat := by omega
    have hidx : (addAllResult (fresh bufsize factor) cs).reqIdx
        < (addAllResult (fresh bufsize factor) cs).requests.length := by
      rw [addAllResult_reqIdx bufsize factor cs, hlen]
      exact Nat.mod_lt _ (by omega)
    rw [addAllResult_snoc, sampled_snoc]
    by_cases hd : c.draw = 0
    · rw [if_pos hd]
      simp only [addResult, if_pos hd]
      have hle : (sampled cs).length + 1
          ≤ (List.replicate bufsize.toNat (0 : ℚ) ++ sampled cs).length := by
        rw [List.length_append, List.length_replicate]
        omega
      rw [rotate_set_succ _ _ _ hidx, ih, List.tail_drop, List.length_append,
        List.length_singleton, ← List.append_assoc, List.drop_append_of_le_length hle]
    · rw [if_neg hd]
      simp only [addResult, if_neg hd]
      exact ih

theorem latestAt_snoc (n : Nat) (vs : List ℚ) (v : ℚ) (i : Nat) :
    latestAt n (vs ++ [v]) i = if vs.length % n = i then v else latestAt n vs i := by
  unfold latestAt
  rw [List.length_append, List.length_singleton, List.range_succ, List.reverse_append,
    List.reverse_singleton, List.singleton_append, List.find?_cons]
  by_cases h : vs.length % n = i
  · simp [h, List.getD_eq_getElem?_getD]
  · simp only [h, decide_False, if_false]
    cases hfind : (List.range vs.length).reverse.find? (fun j => decide (j % n = i)) with
    | none => rfl
    | some j =>
      have hmem : j ∈ (List.range vs.length).reverse := List.mem_of_find?_eq_some hfind
      have hj : j < vs.length := by simpa using hmem
      simp [List.getD_eq_getElem?_getD, List.getElem?_append_left hj]

theorem sampled_of_factor_one (calls : List Call) (hc : ∀ c ∈ calls, ValidCall 1 c) :
    sampled calls = calls.map (fun c => c.t) := by
  have hall : ∀ c ∈ calls, decide (c.draw = 0) = true := by
    intro c hmem
    have h := hc c hmem
    have h0 : c.draw = 0 := by
      have h3 := h.2.2.1
      have h4 := h.2.2.2
      omega
    simp [h0]
  simp only [sampled, List.filter_eq_self.mpr hall]

/-- Slot `i` of the buffer holds the latest sampled latency written at an index congruent
to `i`, or 0. -/
theorem addAllResult_slot (bufsize factor : Int) (calls : List Call) (i : Nat)
    (hi : i < bufsize.toNat) :
    (addAllResult (fresh bufsize factor) calls).requests.getD i 0
      = latestAt bufsize.toNat (sampled calls) i := by
  induction calls using List.reverseRecOn with
  | nil =>
    simp only [addAllResult, List.foldl_nil, fresh, sampled, List.filter_nil, List.map_nil,
      latestAt, List.length_nil, List.range_zero, List.reverse_nil, List.find?_nil,
      List.getD_eq_getElem?_getD, List.getElem?_replicate]
    split <;> rfl
  | append_singleton cs c ih =>
    have hlen : (addAllResult (fresh bufsize factor) cs).requests.length = bufsize.toNat := by
      rw [addAllResult_requests_length]
      simp only [fresh, List.length_replicate]
    rw [addAllResult_snoc, sampled_snoc]
    by_cases hd : c.draw = 0
    · rw [if_pos hd, latestAt_snoc, ← ih, ← addAllResult_reqIdx bufsize factor cs]
      simp only [addResult, if_pos hd, List.getD_eq_getElem?_getD, List.getElem?_set]
      by_cases he : (addAllResult (fresh bufsize factor) cs).reqIdx = i
      · rw [if_pos he, if_pos he, if_pos (by rw [he, hlen]; exact hi)]
        rfl
      · rw [if_neg he, if_neg he]
    · rw [if_neg hd]
      simp only [addResult, if_neg hd]
      exact ih

/-! ## The scan loop of the snapshot -/

theorem scan_foldl_total (l : List ℚ) (s : Scan) :
    (l.foldl scanStep s).totalResponseTime = s.totalResponseTime + l.sum := by
  induction l generalizing s with
  | nil => simp
  | cons x xs ih =>
    rw [List.foldl_cons, ih, List.sum_cons]
    simp only [scanStep]
    ring

theorem scan_foldl_max_ge (l : List ℚ) (s : Scan) :
    s.maxTime ≤ (l.foldl scanStep s).maxTime ∧ ∀ v ∈ l, v ≤ (l.foldl scanStep s).maxTime := by
  induction l generalizing s with
  | nil => simp
  | cons x xs ih =>
    rw [List.foldl_cons]
    obtain ⟨h1, h2⟩ := ih (scanStep s x)
    have hs : s.maxTime ≤ (scanStep s x).maxTime ∧ x ≤ (scanStep s x).maxTime := by
      simp only [scanStep]
      split <;> constructor <;> linarith
    refine ⟨le_trans hs.1 h1, ?_⟩
    intro v hv
    rcases List.mem_cons.mp hv with rfl | hv
    · exact le_trans hs.2 h1
    · exact h2 v hv

theorem scan_foldl_max_mem (l : List ℚ) (s : Scan) :
    (l.foldl scanStep s).maxTime = s.maxTime ∨ (l.foldl scanStep s).maxTime ∈ l := by
  induction l generalizing s with
  | nil => simp
  | cons x xs ih =>
    rw [List.foldl_cons]
    rcases ih (scanStep s x) with h | h
    · rw [h]
      simp only [scanStep]
      split
      · exact Or.inr (List.mem_cons_self x xs)
      · exact Or.inl rfl
    · exact Or.inr (List.mem_cons_of_mem x h)

theorem scan_foldl_min_le (l : List ℚ) (s : Scan) :
    (l.foldl scanStep s).minTime ≤ s.minTime ∧ ∀ v ∈ l, (l.foldl scanStep s).minTime ≤ v := by
  induction l generalizing s with
  | nil => simp
  | cons x xs ih =>
    rw [List.foldl_cons]
    obtain ⟨h1, h2⟩ := ih (scanStep s x)
    have hs : (scanStep s x).minTime ≤ s.minTime ∧ (scanStep s x).minTime ≤ x := by
      simp only [scanStep]
      split <;> constructor <;> linarith
    refine ⟨le_trans h1 hs.1, ?_⟩
    intro v hv
    rcases List.mem_cons.mp hv with rfl | hv
    · exact le_trans h1 hs.2
    · exact h2 v hv

theorem scan_foldl_min_mem (l : List ℚ) (s : Scan) :
    (l.foldl scanStep s).minTime = s.minTime ∨ (l.foldl scanStep s).minTime ∈ l := by
  induction l generalizing s with
  | nil => simp
  | cons x xs ih =>
    rw [List.foldl_cons]
    rcases ih (scanStep s x) with h | h
    · rw [h]
      simp only [scanStep]
      split
      · exact Or.inr (List.mem_cons_self x xs)
      · exact Or.inl rfl
    · exact Or.inr (List.mem_cons_of_mem x h)

theorem scan_total (l : List ℚ) : (scan l).totalResponseTime = l.sum := by
  simp [scan, scan_foldl_total]

theorem MaxFloat64_nonneg : 0 ≤ MaxFloat64 := by
  unfold MaxFloat64
  apply mul_nonneg
  · norm_num
  · positivity

theorem addAllResult_requests_mem (m : Metrics) (calls : List Call) (v : ℚ)
    (hv : v ∈ (addAllResult m calls).requests) :
    v ∈ m.requests ∨ ∃ c ∈ calls, v = c.t := by
  induction calls using List.reverseRecOn with
  | nil => exact Or.inl hv
  | append_singleton cs c ih =>
    rw [addAllResult_snoc] at hv
    by_cases hd : c.draw = 0
    · simp only [addResult, if_pos hd] at hv
      rcases List.mem_or_eq_of_mem_set hv with h | h
      · rcases ih h with h1 | ⟨k, hk, hkv⟩
        · exact Or.inl h1
        · exact Or.inr ⟨k, List.mem_append_left _ hk, hkv⟩
      · exact Or.inr ⟨c, by simp, h⟩
    · simp only [addResult, if_neg hd] at hv
      rcases ih hv with h1 | ⟨k, hk, hkv⟩
      · exact Or.inl h1
      · exact Or.inr ⟨k, List.mem_append_left _ hk, hkv⟩

theorem fresh_statusCount_getD (bufsize factor : Int) (i : Nat) :
    (fresh bufsize factor).statusCount.getD i 0 = 0 := by
  simp only [fresh, List.getD_eq_getElem?_getD, List.getElem?_replicate]
  split <;> rfl

/-- When every stored value lies in `[0, MaxFloat64]`, the scan returns the greatest and
the least stored value. -/
theorem scan_extrema (l : List ℚ) (hne : l ≠ [])
    (hl : ∀ v ∈ l, 0 ≤ v ∧ v ≤ MaxFloat64) :
    ((scan l).maxTime ∈ l ∧ ∀ v ∈ l, v ≤ (scan l).maxTime) ∧
    ((scan l).minTime ∈ l ∧ ∀ v ∈ l, (scan l).minTime ≤ v) := by
  obtain ⟨x, hx⟩ := List.exists_mem_of_ne_nil l hne
  have hmax := scan_foldl_max_ge l { totalResponseTime := 0, maxTime := 0, minTime := MaxFloat64 }
  have hmin := scan_foldl_min_le l { totalResponseTime := 0, maxTime := 0, minTime := MaxFloat64 }
  refine ⟨⟨?_, hmax.2⟩, ⟨?_, hmin.2⟩⟩
  · rcases scan_foldl_max_mem l
      { totalResponseTime := 0, maxTime := 0, minTime := MaxFloat64 } with h | h
    · have hx0 : x = (scan l).maxTime := by
        have h1 : x ≤ (scan l).maxTime := hmax.2 x hx
        have h2 : (scan l).maxTime = 0 := h
        have h3 := (hl x hx).1
        linarith
      rw [← hx0]
      exact hx
    · exact h
  · rcases scan_foldl_min_mem l
      { totalResponseTime := 0, maxTime := 0, minTime := MaxFloat64 } with h | h
    · have hx0 : x = (scan l).minTime := by
        have h1 : (scan l).minTime ≤ x := hmin.2 x hx
        have h2 : (scan l).minTime = MaxFloat64 := h
        have h3 := (hl x hx).2
        linarith
      rw [← hx0]
      exact hx
    · exact h

/-! ## Claims -/

/-- C1, as stated, fails: `NewCapa(1 << 62, 1)` passes both guards and then panics in
`make` (`makeslice: len out of range`); it returns neither an error nor an instance. -/
theorem NewCapa_contract_counterexample :
    IsGoInt (2 ^ 62) ∧ (2 : Int) ≤ 2 ^ 62 ∧ (1 : Int) ≤ 1 ∧
    NewCapa (2 ^ 62) 1 = .panic ∧ ¬ ∃ m, NewCapa (2 ^ 62) 1 = .ok m := by
  have h : NewCapa (2 ^ 62) 1 = .panic :=
    NewCapa_panic (2 ^ 62) 1 (by decide) (by decide) (by decide)
  refine ⟨by decide, by decide, by decide, h, ?_⟩
  rintro ⟨m, hm⟩
  rw [h] at hm
  exact Result.noConfusion hm

/-- C1, amended: `NewCapa(bufsize, factor)` returns an error (and no instance) exactly
when `bufsize < 2` or `factor < 1`; the message is the bufsize one
whenever `bufsize < 2` and the factor one when `bufsize >= 2` and `factor < 1`, the two
messages differ and `NewCapa(1, 1)` fails.  For `bufsize >= 2` and `factor >= 1` it
succeeds when the buffer passes the length check of `make` (`8 * bufsize <= maxAlloc`)
and panics in `make` otherwise. -/
theorem NewCapa_contract (bufsize factor : Int) :
    ((∃ msg, NewCapa bufsize factor = .err msg) ↔ (bufsize < 2 ∨ factor < 1)) ∧
    (bufsize < 2 →
      NewCapa bufsize factor = .err "bufsize must be greater than or equal to 2") ∧
    (2 ≤ bufsize → factor < 1 →
      NewCapa bufsize factor = .err "factor must be greater than 0") ∧
    ("bufsize must be greater than or equal to 2" ≠ "factor must be greater than 0") ∧
    NewCapa 1 1 = .err "bufsize must be greater than or equal to 2" ∧
    (2 ≤ bufsize → 1 ≤ factor → 8 * bufsize ≤ maxAlloc →
      ∃ m, NewCapa bufsize factor = .ok m ∧ (m.requests.length : Int) = bufsize ∧
        m.factor = factor) ∧
    (2 ≤ bufsize → 1 ≤ factor → maxAlloc < 8 * bufsize →
      NewCapa bufsize factor = .panic) := by
  have hA : bufsize < 2 →
      NewCapa bufsize factor = .err "bufsize must be greater than or equal to 2" := by
    intro h
    simp [NewCapa, h]
  have hB : 2 ≤ bufsize → factor < 1 →
      NewCapa bufsize factor = .err "factor must be greater than 0" := by
    intro h1 h2
    have h3 : ¬ bufsize < 2 := by omega
    simp [NewCapa, h3, h2]
  refine ⟨⟨?_, ?_⟩, hA, hB, by decide, by simp [NewCapa], ?_, ?_⟩
  · rintro ⟨msg, hmsg⟩
    by_contra hcon
    by_cases hmax : maxAlloc < 8 * bufsize
    · rw [NewCapa_panic bufsize factor (by omega) (by omega) hmax] at hmsg
      exact Result.noConfusion hmsg
    · rw [NewCapa_ok bufsize factor (by omega) (by omega) (by omega)] at hmsg
      exact Result.noConfusion hmsg
  · rintro (h | h)
    · exact ⟨_, hA h⟩
    · by_cases hb : bufsize < 2
      · exact ⟨_, hA hb⟩
      · exact ⟨_, hB (by omega) h⟩
  · intro h1 h2 h3
    refine ⟨_, NewCapa_ok bufsize factor h1 h2 h3, ?_, rfl⟩
    simp only [fresh, List.length_replicate]
    exact Int.toNat_of_nonneg (by omega)
  · intro h1 h2 h3
    exact NewCapa_panic bufsize factor h1 h2 h3

/-- Witness of C1 at `NewCapa(2, 0)`, the factor message, and at `NewCapa(2, 1)`, which
succeeds. -/
theorem NewCapa_contract_witness :
    NewCapa 2 0 = .err "factor must be greater than 0" ∧
    ∃ m, NewCapa 2 1 = .ok m ∧ (m.requests.length : Int) = 2 ∧ m.factor = 1 :=
  ⟨(NewCapa_contract 2 0).2.2.1 (by decide) (by decide),
    (NewCapa_contract 2 1).2.2.2.2.2.1 (by decide) (by decide) (by decide)⟩

/-- C2: on a Metrics built by `NewCapa` with any factor, after any sequence of `add`
calls with status codes in `0..999` and any draws in `[0, factor)`, `Data` returns and
`Request.Count` is the number of calls made. -/
theorem count_eq_number_of_calls (bufsize factor : Int) (m0 : Metrics) (calls : List Call)
    (pct : List ℚ → ℚ → Result ℚ) (hp : PercentileOK pct)
    (h0 : NewCapa bufsize factor = .ok m0) (hc : ∀ c ∈ calls, ValidCall factor c) :
    ∃ m d, addAll m0 calls = .ok m ∧ m.Data pct = .ok d ∧
      d.Request.Count = calls.length := by
  obtain ⟨hb, hf, rfl⟩ := NewCapa_eq_ok bufsize factor m0 h0
  have hw := fresh_WF bufsize factor hb hf
  have hc2 : ∀ c ∈ calls, 0 ≤ c.statusCode ∧ c.statusCode < 1000 :=
    fun c hmem => ⟨(hc c hmem).1, (hc c hmem).2.1⟩
  obtain ⟨v90, v95, v99, hd⟩ :=
    Data_ok pct _ (addAllResult_WF (fresh bufsize factor) calls hw) hp
  refine ⟨_, _, addAll_ok _ calls hw hc2, hd, ?_⟩
  show (addAllResult (fresh bufsize factor) calls).count = calls.length
  rw [addAllResult_count]
  show (0 : Int) + calls.length = calls.length
  exact zero_add _

/-- Witness of C2: three calls on `NewCapa(2, 3)`, one of them sampled. -/
theorem count_eq_number_of_calls_witness :
    ∃ m d, addAll (fresh 2 3) [⟨200, 1 / 10, 0⟩, ⟨404, 1 / 5, 2⟩, ⟨302, 1 / 2, 1⟩] = .ok m ∧
      m.Data Percentile = .ok d ∧ d.Request.Count = 3 :=
  count_eq_number_of_calls 2 3 (fresh 2 3) [⟨200, 1 / 10, 0⟩, ⟨404, 1 / 5, 2⟩, ⟨302, 1 / 2, 1⟩]
    Percentile Percentile_ok (NewCapa_ok 2 3 (by decide) (by decide) (by decide))
    (by decide)

/-- C3: after any sequence of `add` calls (status codes in `0..999`) on a fresh Metrics,
`Request.StatusCount[c]` is, for every allowlisted `c`, the number of calls made with
status exactly `c`; and one `add` of status 500 and latency 0.05 on `New()` gives
`Count = 1`, `StatusCount[500] = 1` and every other allowlisted status 0. -/
theorem statusCount_eq_calls_with_code (pct : List ℚ → ℚ → Result ℚ)
    (hp : PercentileOK pct) :
    (∀ (bufsize factor : Int) (m0 : Metrics) (calls : List Call),
      NewCapa bufsize factor = .ok m0 → (∀ c ∈ calls, ValidCall factor c) →
      ∃ m d, addAll m0 calls = .ok m ∧ m.Data pct = .ok d ∧
        ∀ code ∈ [200, 400, 401, 403, 404, 500, 501, 502, 503, 504],
          mapGet d.Request.StatusCount code = callsWith code calls) ∧
    (∃ m0 m d, New = .ok m0 ∧ add m0 500 (5 / 100) 0 = .ok m ∧ m.Data pct = .ok d ∧
      d.Request.Count = 1 ∧ mapGet d.Request.StatusCount 500 = 1 ∧
      ∀ code ∈ [200, 400, 401, 403, 404, 501, 502, 503, 504],
        mapGet d.Request.StatusCount code = 0) := by
  have key : ∀ (bufsize factor : Int) (m0 : Metrics) (calls : List Call),
      NewCapa bufsize factor = .ok m0 → (∀ c ∈ calls, ValidCall factor c) →
      ∃ m d, addAll m0 calls = .ok m ∧ m.Data pct = .ok d ∧
        d.Request.Count = calls.length ∧
        ∀ code ∈ httpStatuses, mapGet d.Request.StatusCount code = callsWith code calls := by
    intro bufsize factor m0 calls h0 hc
    obtain ⟨hb, hf, rfl⟩ := NewCapa_eq_ok bufsize factor m0 h0
    have hw := fresh_WF bufsize factor hb hf
    have hc2 : ∀ c ∈ calls, 0 ≤ c.statusCode ∧ c.statusCode < 1000 :=
      fun c hmem => ⟨(hc c hmem).1, (hc c hmem).2.1⟩
    obtain ⟨v90, v95, v99, hd⟩ :=
      Data_ok pct _ (addAllResult_WF (fresh bufsize factor) calls hw) hp
    refine ⟨_, _, addAll_ok _ calls hw hc2, hd, ?_, ?_⟩
    · show (addAllResult (fresh bufsize factor) calls).count = calls.length
      rw [addAllResult_count]
      exact zero_add _
    · intro code hcode
      have hcode0 : 0 ≤ code := by
        simp only [httpStatuses, List.mem_cons, List.mem_singleton, List.mem_nil_iff,
          or_false] at hcode
        omega
      show mapGet (httpStatuses.map (fun status =>
          (status, (addAllResult (fresh bufsize factor) calls).statusCount.getD
            status.toNat 0))) code = _
      rw [mapGet_map_self, if_pos hcode,
        addAllResult_statusCount _ calls code hw hc2 hcode0]
      have hz : (fresh bufsize factor).statusCount.getD code.toNat 0 = 0 := by
        simp only [fresh, List.getD_eq_getElem?_getD, List.getElem?_replicate]
        split <;> rfl
      rw [hz, zero_add]
  refine ⟨fun bufsize factor m0 calls h0 hc => ?_, ?_⟩
  · obtain ⟨m, d, h1, h2, _, h4⟩ := key bufsize factor m0 calls h0 hc
    exact ⟨m, d, h1, h2, h4⟩
  · have hnew : New = .ok (fresh 1000 1) := NewCapa_ok 1000 1 (by decide) (by decide) (by decide)
    obtain ⟨m, d, h1, h2, h3, h4⟩ :=
      key 1000 1 (fresh 1000 1) [⟨500, 5 / 100, 0⟩] hnew (by decide)
    have hadd : add (fresh 1000 1) 500 (5 / 100) 0 = .ok m := by
      simp only [addAll] at h1
      cases hx : add (fresh 1000 1) 500 (5 / 100) 0 with
      | ok m1 => rw [hx] at h1; exact h1
      | err e => rw [hx] at h1; exact Result.noConfusion h1
      | panic => rw [hx] at h1; exact Result.noConfusion h1
    refine ⟨_, m, d, hnew, hadd, h2, by simpa using h3, ?_, ?_⟩
    · rw [h4 500 (by decide)]; rfl
    · intro code hcode
      have hmem : code ∈ httpStatuses := by
        simp only [List.mem_cons, List.mem_singleton, List.mem_nil_iff, or_false] at hcode
        simp only [httpStatuses, List.mem_cons, List.mem_singleton, List.mem_nil_iff,
          or_false]
        omega
      have hne : ¬ (500 : Int) = code := by
        simp only [List.mem_cons, List.mem_singleton, List.mem_nil_iff, or_false] at hcode
        omega
      rw [h4 code hmem]
      simp [callsWith, hne]

/-- Witness of C3: two of three calls on `NewCapa(2, 3)` carry status 404. -/
theorem statusCount_eq_calls_with_code_witness :
    ∃ m d, addAll (fresh 2 3) [⟨404, 1 / 10, 0⟩, ⟨200, 1 / 5, 2⟩, ⟨404, 1 / 2, 1⟩] = .ok m ∧
      m.Data Percentile = .ok d ∧
      ∀ code ∈ [200, 400, 401, 403, 404, 500, 501, 502, 503, 504],
        mapGet d.Request.StatusCount code
          = callsWith code [⟨404, 1 / 10, 0⟩, ⟨200, 1 / 5, 2⟩, ⟨404, 1 / 2, 1⟩] :=
  (statusCount_eq_calls_with_code Percentile Percentile_ok).1 2 3 (fresh 2 3)
    [⟨404, 1 / 10, 0⟩, ⟨200, 1 / 5, 2⟩, ⟨404, 1 / 2, 1⟩]
    (NewCapa_ok 2 3 (by decide) (by decide) (by decide)) (by decide)

/-- C4, as stated, fails: status code 1000 is outside the allowlist, and the `add` call
panics on the status array instead of completing with `Count` incremented. -/
theorem add_outside_allowlist_counterexample :
    ∃ m0, NewCapa 2 1 = .ok m0 ∧ (1000 : Int) ∉ httpStatuses ∧
      add m0 1000 (1 / 10) 0 = .panic ∧ ¬ ∃ m, add m0 1000 (1 / 10) 0 = .ok m := by
  have h : add (fresh 2 1) 1000 (1 / 10) 0 = .panic :=
    add_panic _ 1000 _ 0 (fresh_WF 2 1 (by decide) (by decide)) (Or.inr (by decide))
  refine ⟨fresh 2 1, NewCapa_ok 2 1 (by decide) (by decide) (by decide), by decide, h, ?_⟩
  rintro ⟨m, hm⟩
  rw [h] at hm
  exact Result.noConfusion hm

/-- C4, amended: in every reachable state the keys of `Request.StatusCount` are exactly
the ten allowlisted codes (each once), and an `add` call whose status code is outside
the allowlist but within `0..999` increments `Request.Count` by one and leaves the
whole reported `StatusCount` unchanged. -/
theorem add_outside_allowlist (bufsize factor : Int) (m0 : Metrics) (calls : List Call)
    (pct : List ℚ → ℚ → Result ℚ) (hp : PercentileOK pct)
    (h0 : NewCapa bufsize factor = .ok m0) (hc : ∀ c ∈ calls, ValidCall factor c) :
    ∃ m d, addAll m0 calls = .ok m ∧ m.Data pct = .ok d ∧
      (mapKeys d.Request.StatusCount).Nodup ∧
      (∀ k, k ∈ mapKeys d.Request.StatusCount ↔
        k ∈ [200, 400, 401, 403, 404, 500, 501, 502, 503, 504]) ∧
      ∀ (statusCode : Int) (t : ℚ) (draw : Int),
        statusCode ∉ [200, 400, 401, 403, 404, 500, 501, 502, 503, 504] →
        0 ≤ statusCode → statusCode < 1000 →
        ∃ m1 d1, add m statusCode t draw = .ok m1 ∧ m1.Data pct = .ok d1 ∧
          d1.Request.Count = d.Request.Count + 1 ∧
          d1.Request.StatusCount = d.Request.StatusCount := by
  obtain ⟨hb, hf, rfl⟩ := NewCapa_eq_ok bufsize factor m0 h0
  have hw := fresh_WF bufsize factor hb hf
  have hc2 : ∀ c ∈ calls, 0 ≤ c.statusCode ∧ c.statusCode < 1000 :=
    fun c hmem => ⟨(hc c hmem).1, (hc c hmem).2.1⟩
  have hwm := addAllResult_WF (fresh bufsize factor) calls hw
  obtain ⟨v90, v95, v99, hd⟩ := Data_ok pct _ hwm hp
  refine ⟨_, _, addAll_ok _ calls hw hc2, hd, ?_, ?_, ?_⟩
  · dsimp only
    rw [mapKeys_map_self]
    decide
  · intro k
    dsimp only
    rw [mapKeys_map_self]
    rfl
  · intro statusCode t draw hout hs0 hs1
    have hw1 := addResult_WF (addAllResult (fresh bufsize factor) calls) statusCode t draw hwm
    obtain ⟨w90, w95, w99, hd1⟩ := Data_ok pct _ hw1 hp
    refine ⟨_, _, add_ok _ statusCode t draw hwm hs0 hs1, hd1, rfl, ?_⟩
    dsimp only
    apply List.map_congr_left
    intro code hcode
    have hcode0 : 0 ≤ code := by
      simp only [httpStatuses, List.mem_cons, List.mem_singleton, List.mem_nil_iff,
        or_false] at hcode
      omega
    have hne : ¬ statusCode = code := by
      intro e
      rw [e] at hout
      exact hout hcode
    have hlen : statusCode <
        ((addAllResult (fresh bufsize factor) calls).statusCount.length : Int) := by
      rw [hwm.statusLen]; exact hs1
    rw [addResult_statusCount_getD _ statusCode t draw code hs0 hlen hcode0, if_neg hne,
      add_zero]

/-- Witness of C4: status 302 recorded after two calls on `NewCapa(2, 2)`. -/
theorem add_outside_allowlist_witness :
    ∃ m d, addAll (fresh 2 2) [⟨200, 1 / 10, 0⟩, ⟨500, 1 / 5, 1⟩] = .ok m ∧
      m.Data Percentile = .ok d ∧
      ∃ m1 d1, add m 302 (3 / 10) 0 = .ok m1 ∧ m1.Data Percentile = .ok d1 ∧
        d1.Request.Count = d.Request.Count + 1 ∧
        d1.Request.StatusCount = d.Request.StatusCount := by
  obtain ⟨m, d, h1, h2, _, _, h5⟩ := add_outside_allowlist 2 2 (fresh 2 2)
    [⟨200, 1 / 10, 0⟩, ⟨500, 1 / 5, 1⟩] Percentile Percentile_ok
    (NewCapa_ok 2 2 (by decide) (by decide) (by decide)) (by decide)
  exact ⟨m, d, h1, h2, h5 302 (3 / 10) 0 (by decide) (by decide) (by decide)⟩

/-- C5, as stated, fails: `add` panics on the status array for the integer status codes
1000 and -1. -/
theorem add_never_fails_counterexample :
    ∃ m0, NewCapa 1000 1 = .ok m0 ∧ add m0 1000 (1 / 10) 0 = .panic ∧
      add m0 (-1) (1 / 10) 0 = .panic :=
  ⟨fresh 1000 1, NewCapa_ok 1000 1 (by decide) (by decide) (by decide),
    add_panic _ 1000 _ 0 (fresh_WF 1000 1 (by decide) (by decide)) (Or.inr (by decide)),
    add_panic _ (-1) _ 0 (fresh_WF 1000 1 (by decide) (by decide)) (Or.inl (by decide))⟩

/-- C5, amended: in every state reached from `NewCapa` by `add` calls, `add` completes
normally for every status code in `0..999`, every latency and every draw; for an
integer status code outside `0..999` it panics. -/
theorem add_completes_in_range (bufsize factor : Int) (m0 : Metrics) (calls : List Call)
    (h0 : NewCapa bufsize factor = .ok m0) (hc : ∀ c ∈ calls, ValidCall factor c) :
    ∃ m, addAll m0 calls = .ok m ∧
      ∀ (statusCode : Int) (t : ℚ) (draw : Int),
        (0 ≤ statusCode → statusCode < 1000 → ∃ m1, add m statusCode t draw = .ok m1) ∧
        (statusCode < 0 ∨ 1000 ≤ statusCode → add m statusCode t draw = .panic) := by
  obtain ⟨hb, hf, rfl⟩ := NewCapa_eq_ok bufsize factor m0 h0
  have hw := fresh_WF bufsize factor hb hf
  have hc2 : ∀ c ∈ calls, 0 ≤ c.statusCode ∧ c.statusCode < 1000 :=
    fun c hmem => ⟨(hc c hmem).1, (hc c hmem).2.1⟩
  have hwm := addAllResult_WF (fresh bufsize factor) calls hw
  refine ⟨_, addAll_ok _ calls hw hc2, fun statusCode t draw => ⟨?_, ?_⟩⟩
  · intro hs0 hs1
    exact ⟨_, add_ok _ statusCode t draw hwm hs0 hs1⟩
  · intro hs
    exact add_panic _ statusCode t draw hwm hs

/-- Witness of C5: status 999 recorded after one call on `NewCapa(2, 1)`. -/
theorem add_completes_in_range_witness :
    ∃ m, addAll (fresh 2 1) [⟨0, 1 / 10, 0⟩] = .ok m ∧
      ∃ m1, add m 999 (1 / 5) 0 = .ok m1 := by
  obtain ⟨m, h1, h2⟩ := add_completes_in_range 2 1 (fresh 2 1) [⟨0, 1 / 10, 0⟩]
    (NewCapa_ok 2 1 (by decide) (by decide) (by decide)) (by decide)
  exact ⟨m, h1, (h2 999 (1 / 5) 0).1 (by decide) (by decide)⟩

/-- C6: on a Metrics of capacity `n` with factor 1, after the latencies of any sequence
of calls have been inserted the buffer still has `n` slots, slot `i` holds the latest
latency inserted at a position congruent to `i` modulo `n` (0 when there is none), and
when `n + k` latencies were inserted the buffer, read from the cursor, is exactly the
last `n` of them in insertion order: the oldest `k` are overwritten. -/
theorem ring_buffer_wraparound (n : Int) (m0 : Metrics) (calls : List Call)
    (h0 : NewCapa n 1 = .ok m0) (hc : ∀ c ∈ calls, ValidCall 1 c) :
    ∃ m, addAll m0 calls = .ok m ∧
      m.requests.length = n.toNat ∧
      (∀ i, i < n.toNat →
        m.requests.getD i 0 = latestAt n.toNat (calls.map (fun c => c.t)) i) ∧
      (∀ k, calls.length = n.toNat + k →
        m.requests.rotate m.reqIdx = (calls.map (fun c => c.t)).drop k ∧
        m.requests.Perm ((calls.map (fun c => c.t)).drop k)) := by
  obtain ⟨hb, hf, rfl⟩ := NewCapa_eq_ok n 1 m0 h0
  have hw := fresh_WF n 1 hb hf
  have hc2 : ∀ c ∈ calls, 0 ≤ c.statusCode ∧ c.statusCode < 1000 :=
    fun c hmem => ⟨(hc c hmem).1, (hc c hmem).2.1⟩
  have hs := sampled_of_factor_one calls hc
  have hlen : (addAllResult (fresh n 1) calls).requests.length = n.toNat := by
    rw [addAllResult_requests_length]
    simp only [fresh, List.length_replicate]
  have hrot : ∀ k, calls.length = n.toNat + k →
      (addAllResult (fresh n 1) calls).requests.rotate (addAllResult (fresh n 1) calls).reqIdx
        = (calls.map (fun c => c.t)).drop k := by
    intro k hk
    have h := addAllResult_rotate n 1 calls hb
    rw [hs, List.length_map, hk] at h
    have hdrop := @List.drop_append ℚ (List.replicate n.toNat 0) (calls.map (fun c => c.t)) k
    rw [List.length_replicate] at hdrop
    rw [h, hdrop]
  refine ⟨_, addAll_ok _ calls hw hc2, hlen, ?_, ?_⟩
  · intro i hi
    rw [addAllResult_slot n 1 calls i hi, hs]
  · intro k hk
    refine ⟨hrot k hk, ?_⟩
    rw [← hrot k hk]
    exact (List.rotate_perm _ _).symm

/-- Witness of C6: capacity 2, three latencies; the first is overwritten by the third. -/
theorem ring_buffer_wraparound_witness :
    ∃ m, addAll (fresh 2 1) [⟨200, 1 / 10, 0⟩, ⟨200, 1 / 5, 0⟩, ⟨200, 3 / 10, 0⟩] = .ok m ∧
      m.requests.rotate m.reqIdx = [1 / 5, 3 / 10] := by
  obtain ⟨m, h1, _, _, h4⟩ := ring_buffer_wraparound 2 (fresh 2 1)
    [⟨200, 1 / 10, 0⟩, ⟨200, 1 / 5, 0⟩, ⟨200, 3 / 10, 0⟩]
    (NewCapa_ok 2 1 (by decide) (by decide) (by decide)) (by decide)
  exact ⟨m, h1, (h4 1 rfl).1⟩

/-- C7, as stated, fails: with status code 1000 and draw 0 the call panics on the status
array before `insertRequestBuffer`, so the latency is not written although the draw is 0. -/
theorem sampling_policy_counterexample :
    ∃ m0, NewCapa 3 2 = .ok m0 ∧ (0 : Int) ≤ 0 ∧ (0 : Int) < m0.factor ∧
      add m0 1000 (1 / 4) 0 = .panic ∧ ¬ ∃ m1, add m0 1000 (1 / 4) 0 = .ok m1 := by
  have h : add (fresh 3 2) 1000 (1 / 4) 0 = .panic :=
    add_panic _ 1000 _ 0 (fresh_WF 3 2 (by decide) (by decide)) (Or.inr (by decide))
  refine ⟨fresh 3 2, NewCapa_ok 3 2 (by decide) (by decide) (by decide), by decide,
    by decide, h, ?_⟩
  rintro ⟨m1, hm⟩
  rw [h] at hm
  exact Result.noConfusion hm

/-- C7, amended: in every state reached from `NewCapa` by `add` calls, an `add` with a status
code in `0..999` and a draw `d` in `[0, factor)` returns; the counters get the same
increments whatever `d` is; the latency is stored at the cursor and the cursor advanced
when `d = 0`, buffer and cursor are untouched when `d ≠ 0` (so the cursor moves exactly
when `d = 0`); and with factor 1 the draw is 0 and the latency is stored. -/
theorem sampling_policy (bufsize factor : Int) (m0 : Metrics) (calls : List Call)
    (h0 : NewCapa bufsize factor = .ok m0) (hc : ∀ c ∈ calls, ValidCall factor c) :
    ∃ m, addAll m0 calls = .ok m ∧ m.factor = factor ∧
      ∀ (statusCode : Int) (t : ℚ) (d : Int),
        0 ≤ statusCode → statusCode < 1000 → 0 ≤ d → d < m.factor →
        ∃ m1, add m statusCode t d = .ok m1 ∧
          m1.count = m.count + 1 ∧
          m1.statusCount
            = m.statusCount.set statusCode.toNat (m.statusCount.getD statusCode.toNat 0 + 1) ∧
          (d = 0 → m1.requests = m.requests.set m.reqIdx t ∧
            m1.requests.getD m.reqIdx 0 = t ∧
            m1.reqIdx = (m.reqIdx + 1) % m.requests.length) ∧
          (d ≠ 0 → m1.requests = m.requests ∧ m1.reqIdx = m.reqIdx) ∧
          (m1.reqIdx ≠ m.reqIdx ↔ d = 0) ∧
          (m.factor = 1 → d = 0 ∧ m1.requests = m.requests.set m.reqIdx t) := by
  obtain ⟨hb, hf, rfl⟩ := NewCapa_eq_ok bufsize factor m0 h0
  have hw := fresh_WF bufsize factor hb hf
  have hc2 : ∀ c ∈ calls, 0 ≤ c.statusCode ∧ c.statusCode < 1000 :=
    fun c hmem => ⟨(hc c hmem).1, (hc c hmem).2.1⟩
  have hwm := addAllResult_WF (fresh bufsize factor) calls hw
  refine ⟨_, addAll_ok _ calls hw hc2, addAllResult_factor _ calls, ?_⟩
  intro statusCode t d hs0 hs1 hd0 hd1
  have hlen := hwm.bufLen
  have hidx := hwm.idxLt
  have hne : ((addAllResult (fresh bufsize factor) calls).reqIdx + 1)
      % (addAllResult (fresh bufsize factor) calls).requests.length
        ≠ (addAllResult (fresh bufsize factor) calls).reqIdx := by
    intro e
    by_cases hlast : (addAllResult (fresh bufsize factor) calls).reqIdx + 1
        < (addAllResult (fresh bufsize factor) calls).requests.length
    · rw [Nat.mod_eq_of_lt hlast] at e
      omega
    · have heq : (addAllResult (fresh bufsize factor) calls).reqIdx + 1
          = (addAllResult (fresh bufsize factor) calls).requests.length := by omega
      rw [heq, Nat.mod_self] at e
      omega
  refine ⟨_, add_ok _ statusCode t d hwm hs0 hs1, rfl, rfl, ?_, ?_, ?_, ?_⟩
  · intro hd
    simp only [addResult, if_pos hd, List.getD_eq_getElem?_getD, List.getElem?_set, if_pos hidx,
      if_true, Option.getD_some, and_self]
  · intro hd
    simp only [addResult, if_neg hd, and_self]
  · by_cases hd : d = 0
    · simp only [addResult, if_pos hd, hd, iff_true]
      exact hne
    · have hsame : (addResult (addAllResult (fresh bufsize factor) calls) statusCode t d).reqIdx
          = (addAllResult (fresh bufsize factor) calls).reqIdx := by
        simp only [addResult, if_neg hd]
      exact ⟨fun h => absurd hsame h, fun h => absurd h hd⟩
  · intro hone
    have hd : d = 0 := by omega
    exact ⟨hd, by simp only [addResult, if_pos hd]⟩

/-- Witness of C7: on `NewCapa(2, 3)` after one call, a draw of 2 leaves the buffer and
a draw of 0 writes the latency. -/
theorem sampling_policy_witness :
    ∃ m, addAll (fresh 2 3) [⟨200, 1 / 10, 0⟩] = .ok m ∧
      (∃ m1, add m 200 (1 / 5) 2 = .ok m1 ∧ m1.requests = m.requests ∧ m1.reqIdx = m.reqIdx) ∧
      (∃ m1, add m 200 (1 / 5) 0 = .ok m1 ∧ m1.requests = m.requests.set m.reqIdx (1 / 5)) := by
  obtain ⟨m, h1, h2, h3⟩ := sampling_policy 2 3 (fresh 2 3) [⟨200, 1 / 10, 0⟩]
    (NewCapa_ok 2 3 (by decide) (by decide) (by decide)) (by decide)
  refine ⟨m, h1, ?_, ?_⟩
  · obtain ⟨m1, g1, _, _, _, g5, _⟩ :=
      h3 200 (1 / 5) 2 (by decide) (by decide) (by decide) (by rw [h2]; decide)
    exact ⟨m1, g1, g5 (by decide)⟩
  · obtain ⟨m1, g1, _, _, g4, _⟩ :=
      h3 200 (1 / 5) 0 (by decide) (by decide) (by decide) (by rw [h2]; decide)
    exact ⟨m1, g1, (g4 rfl).1⟩

/-- Outside the elapsed times `WrapHandleFunc` passes: after two latencies of -1 on a
Metrics of capacity 2 both slots hold -1 and `MaxTime` is 0, not a stored value; the
nonnegative slot asked for below cannot be dropped. -/
theorem max_time_negative_latencies :
    ∃ m0 m d, NewCapa 2 1 = .ok m0 ∧
      addAll m0 [⟨200, -1, 0⟩, ⟨200, -1, 0⟩] = .ok m ∧ m.Data Percentile = .ok d ∧
      m.requests = [-1, -1] ∧ d.Response.MaxTime = 0 ∧ d.Response.MaxTime ∉ m.requests := by
  have hw := fresh_WF 2 1 (by decide) (by decide)
  have hwm := addAllResult_WF (fresh 2 1) [⟨200, -1, 0⟩, ⟨200, -1, 0⟩] hw
  obtain ⟨v90, v95, v99, hd⟩ := Data_ok Percentile _ hwm Percentile_ok
  have hreq : (addAllResult (fresh 2 1) [⟨200, -1, 0⟩, ⟨200, -1, 0⟩]).requests = [-1, -1] := rfl
  have hmax : (scan (addAllResult (fresh 2 1) [⟨200, -1, 0⟩, ⟨200, -1, 0⟩]).requests).maxTime
      = 0 := by
    rw [hreq]
    norm_num [scan, scanStep]
  refine ⟨_, _, _, NewCapa_ok 2 1 (by decide) (by decide) (by decide),
    addAll_ok _ _ hw (by decide), hd, hreq, hmax, ?_⟩
  dsimp only
  rw [hmax, hreq]
  norm_num

/-- C8: in every reachable state `MaxTime` is at least, and `MinTime` at most, every value
stored in the buffer (unfilled slots holding 0).  `MaxTime` is itself stored, hence the
greatest stored value, as soon as one slot holds a nonnegative value: always while a slot
is unfilled, and whenever the recorded latencies are elapsed times.  `MinTime` is itself
stored, hence the least stored value, as soon as one slot is at most `math.MaxFloat64`:
for every finite `float64` latency, negative ones included. -/
theorem min_max_of_buffer (bufsize factor : Int) (m0 : Metrics) (calls : List Call)
    (pct : List ℚ → ℚ → Result ℚ) (hp : PercentileOK pct)
    (h0 : NewCapa bufsize factor = .ok m0) (hc : ∀ c ∈ calls, ValidCall factor c) :
    ∃ m d, addAll m0 calls = .ok m ∧ m.Data pct = .ok d ∧
      (∀ v ∈ m.requests, v ≤ d.Response.MaxTime) ∧
      (∀ v ∈ m.requests, d.Response.MinTime ≤ v) ∧
      ((∃ v ∈ m.requests, 0 ≤ v) → d.Response.MaxTime ∈ m.requests) ∧
      ((∃ v ∈ m.requests, v ≤ MaxFloat64) → d.Response.MinTime ∈ m.requests) ∧
      ((∀ c ∈ calls, 0 ≤ c.t) → d.Response.MaxTime ∈ m.requests) ∧
      ((∀ c ∈ calls, c.t ≤ MaxFloat64) → d.Response.MinTime ∈ m.requests) := by
  obtain ⟨hb, hf, rfl⟩ := NewCapa_eq_ok bufsize factor m0 h0
  have hw := fresh_WF bufsize factor hb hf
  have hc2 : ∀ c ∈ calls, 0 ≤ c.statusCode ∧ c.statusCode < 1000 :=
    fun c hmem => ⟨(hc c hmem).1, (hc c hmem).2.1⟩
  have hwm := addAllResult_WF (fresh bufsize factor) calls hw
  obtain ⟨v90, v95, v99, hd⟩ := Data_ok pct _ hwm hp
  have hmaxge := (scan_foldl_max_ge (addAllResult (fresh bufsize factor) calls).requests
    { totalResponseTime := 0, maxTime := 0, minTime := MaxFloat64 }).2
  have hminle := (scan_foldl_min_le (addAllResult (fresh bufsize factor) calls).requests
    { totalResponseTime := 0, maxTime := 0, minTime := MaxFloat64 }).2
  have hmaxmem : (∃ v ∈ (addAllResult (fresh bufsize factor) calls).requests, 0 ≤ v) →
      (scan (addAllResult (fresh bufsize factor) calls).requests).maxTime
        ∈ (addAllResult (fresh bufsize factor) calls).requests := by
    rintro ⟨v, hv, hv0⟩
    rcases scan_foldl_max_mem (addAllResult (fresh bufsize factor) calls).requests
      { totalResponseTime := 0, maxTime := 0, minTime := MaxFloat64 } with h | h
    · have h1 : v ≤ (scan (addAllResult (fresh bufsize factor) calls).requests).maxTime :=
        hmaxge v hv
      have h2 : (scan (addAllResult (fresh bufsize factor) calls).requests).maxTime = 0 := h
      have h3 : v = (scan (addAllResult (fresh bufsize factor) calls).requests).maxTime := by
        linarith
      rw [← h3]
      exact hv
    · exact h
  have hminmem : (∃ v ∈ (addAllResult (fresh bufsize factor) calls).requests,
      v ≤ MaxFloat64) →
      (scan (addAllResult (fresh bufsize factor) calls).requests).minTime
        ∈ (addAllResult (fresh bufsize factor) calls).requests := by
    rintro ⟨v, hv, hvm⟩
    rcases scan_foldl_min_mem (addAllResult (fresh bufsize factor) calls).requests
      { totalResponseTime := 0, maxTime := 0, minTime := MaxFloat64 } with h | h
    · have h1 : (scan (addAllResult (fresh bufsize factor) calls).requests).minTime ≤ v :=
        hminle v hv
      have h2 : (scan (addAllResult (fresh bufsize factor) calls).requests).minTime
          = MaxFloat64 := h
      have h3 : v = (scan (addAllResult (fresh bufsize factor) calls).requests).minTime := by
        linarith
      rw [← h3]
      exact hv
    · exact h
  obtain ⟨x, hx⟩ : ∃ x, x ∈ (addAllResult (fresh bufsize factor) calls).requests := by
    apply List.exists_mem_of_ne_nil
    intro e
    have h2 := hwm.bufLen
    rw [e] at h2
    simp at h2
  refine ⟨_, _, addAll_ok _ calls hw hc2, hd, hmaxge, hminle, hmaxmem, hminmem, ?_, ?_⟩
  · intro hlat
    apply hmaxmem
    refine ⟨x, hx, ?_⟩
    rcases addAllResult_requests_mem _ calls x hx with h | ⟨c, hcm, hcv⟩
    · have hz : x = 0 := List.eq_of_mem_replicate h
      rw [hz]
    · rw [hcv]
      exact hlat c hcm
  · intro hlat
    apply hminmem
    refine ⟨x, hx, ?_⟩
    rcases addAllResult_requests_mem _ calls x hx with h | ⟨c, hcm, hcv⟩
    · have hz : x = 0 := List.eq_of_mem_replicate h
      rw [hz]
      exact MaxFloat64_nonneg
    · rw [hcv]
      exact hlat c hcm

/-- Witness of C8: latencies 0.3 and 0.1 on `NewCapa(2, 1)`. -/
theorem min_max_of_buffer_witness :
    ∃ m d, addAll (fresh 2 1) [⟨200, 3 / 10, 0⟩, ⟨404, 1 / 10, 0⟩] = .ok m ∧
      m.Data Percentile = .ok d ∧
      (d.Response.MaxTime ∈ m.requests ∧ ∀ v ∈ m.requests, v ≤ d.Response.MaxTime) ∧
      (d.Response.MinTime ∈ m.requests ∧ ∀ v ∈ m.requests, d.Response.MinTime ≤ v) := by
  obtain ⟨m, d, h1, h2, h3, h4, _, _, h7, h8⟩ := min_max_of_buffer 2 1 (fresh 2 1)
    [⟨200, 3 / 10, 0⟩, ⟨404, 1 / 10, 0⟩] Percentile Percentile_ok
    (NewCapa_ok 2 1 (by decide) (by decide) (by decide)) (by decide)
  refine ⟨m, d, h1, h2, ⟨h7 ?_, h3⟩, ⟨h8 ?_, h4⟩⟩
  · intro c hmem
    simp only [List.mem_cons, List.mem_singleton, List.mem_nil_iff, or_false] at hmem
    rcases hmem with rfl | rfl <;> norm_num
  · intro c hmem
    simp only [List.mem_cons, List.mem_singleton, List.mem_nil_iff, or_false] at hmem
    rcases hmem with rfl | rfl <;> norm_num [MaxFloat64]

/-- C9: in every reachable state `AverageTime` is the sum of all buffer slots divided by
the capacity `bufsize`; when no more than `bufsize` latencies have been sampled it is
their sum divided by `bufsize`, not by their number. -/
theorem average_over_capacity (bufsize factor : Int) (m0 : Metrics) (calls : List Call)
    (pct : List ℚ → ℚ → Result ℚ) (hp : PercentileOK pct)
    (h0 : NewCapa bufsize factor = .ok m0) (hc : ∀ c ∈ calls, ValidCall factor c) :
    ∃ m d, addAll m0 calls = .ok m ∧ m.Data pct = .ok d ∧
      d.Response.AverageTime = m.requests.sum / (bufsize : ℚ) ∧
      ((sampled calls).length ≤ bufsize.toNat →
        d.Response.AverageTime = (sampled calls).sum / (bufsize : ℚ)) := by
  obtain ⟨hb, hf, rfl⟩ := NewCapa_eq_ok bufsize factor m0 h0
  have hw := fresh_WF bufsize factor hb hf
  have hc2 : ∀ c ∈ calls, 0 ≤ c.statusCode ∧ c.statusCode < 1000 :=
    fun c hmem => ⟨(hc c hmem).1, (hc c hmem).2.1⟩
  have hwm := addAllResult_WF (fresh bufsize factor) calls hw
  obtain ⟨v90, v95, v99, hd⟩ := Data_ok pct _ hwm hp
  have hlen : (addAllResult (fresh bufsize factor) calls).requests.length = bufsize.toNat := by
    rw [addAllResult_requests_length]
    simp only [fresh, List.length_replicate]
  have hcast : ((bufsize.toNat : Nat) : ℚ) = (bufsize : ℚ) := by
    have h1 : ((bufsize.toNat : Nat) : Int) = bufsize := Int.toNat_of_nonneg (by omega)
    have h2 : (((bufsize.toNat : Nat) : Int) : ℚ) = (bufsize : ℚ) := by rw [h1]
    rw [← h2, Int.cast_natCast]
  have havg : (scan (addAllResult (fresh bufsize factor) calls).requests).totalResponseTime
      / ((addAllResult (fresh bufsize factor) calls).requests.length : ℚ)
      = (addAllResult (fresh bufsize factor) calls).requests.sum / (bufsize : ℚ) := by
    rw [scan_total, hlen, hcast]
  refine ⟨_, _, addAll_ok _ calls hw hc2, hd, havg, ?_⟩
  intro hm
  dsimp only
  rw [havg]
  congr 1
  have hperm := List.rotate_perm (addAllResult (fresh bufsize factor) calls).requests
    (addAllResult (fresh bufsize factor) calls).reqIdx
  rw [← hperm.sum_eq, addAllResult_rotate bufsize factor calls hb,
    List.drop_append_of_le_length (by rw [List.length_replicate]; exact hm),
    List.sum_append, List.drop_replicate, List.sum_replicate, smul_zero, zero_add]

/-- Witness of C9: one latency of 0.3 sampled on `NewCapa(3, 2)`, so the average is
0.3 / 3. -/
theorem average_over_capacity_witness :
    ∃ m d, addAll (fresh 3 2) [⟨200, 3 / 10, 0⟩, ⟨200, 1 / 2, 1⟩] = .ok m ∧
      m.Data Percentile = .ok d ∧ d.Response.AverageTime = 1 / 10 := by
  obtain ⟨m, d, h1, h2, _, h4⟩ := average_over_capacity 3 2 (fresh 3 2)
    [⟨200, 3 / 10, 0⟩, ⟨200, 1 / 2, 1⟩] Percentile Percentile_ok
    (NewCapa_ok 3 2 (by decide) (by decide) (by decide)) (by decide)
  refine ⟨m, d, h1, h2, ?_⟩
  rw [h4 (by decide)]
  norm_num [sampled]

/-- C10: scenario A.  `NewCapa(2, 1)` succeeds; after `add` of status 200 with latency
0.1 and `add` of status 200 with latency 0.3, `Data` returns `Count = 2`,
`StatusCount[200] = 2`, `MinTime = 0.1`, `MaxTime = 0.3` and `AverageTime = 0.2`. -/
theorem scenario_A (pct : List ℚ → ℚ → Result ℚ) (hp : PercentileOK pct) :
    ∃ m0 m1 m d, NewCapa 2 1 = .ok m0 ∧ add m0 200 (1 / 10) 0 = .ok m1 ∧
      add m1 200 (3 / 10) 0 = .ok m ∧ m.Data pct = .ok d ∧
      d.Request.Count = 2 ∧ mapGet d.Request.StatusCount 200 = 2 ∧
      d.Response.MinTime = 1 / 10 ∧ d.Response.MaxTime = 3 / 10 ∧
      d.Response.AverageTime = 2 / 10 := by
  have hw := fresh_WF 2 1 (by decide) (by decide)
  have hw1 := addResult_WF (fresh 2 1) 200 (1 / 10) 0 hw
  have hw2 := addResult_WF (addResult (fresh 2 1) 200 (1 / 10) 0) 200 (3 / 10) 0 hw1
  have hall : addResult (addResult (fresh 2 1) 200 (1 / 10) 0) 200 (3 / 10) 0
      = addAllResult (fresh 2 1) [⟨200, 1 / 10, 0⟩, ⟨200, 3 / 10, 0⟩] := rfl
  have hreq : (addResult (addResult (fresh 2 1) 200 (1 / 10) 0) 200 (3 / 10) 0).requests
      = [1 / 10, 3 / 10] := rfl
  obtain ⟨v90, v95, v99, hd⟩ := Data_ok pct _ hw2 hp
  refine ⟨_, _, _, _, NewCapa_ok 2 1 (by decide) (by decide) (by decide),
    add_ok _ 200 _ 0 hw (by decide) (by decide),
    add_ok _ 200 _ 0 hw1 (by decide) (by decide), hd, ?_, ?_, ?_, ?_, ?_⟩
  · dsimp only
    rw [hall, addAllResult_count]
    rfl
  · dsimp only
    rw [mapGet_map_self, if_pos (by decide), hall,
      addAllResult_statusCount _ _ 200 hw (by decide) (by decide), fresh_statusCount_getD]
    rfl
  · dsimp only
    rw [hreq]
    norm_num [scan, scanStep, MaxFloat64]
  · dsimp only
    rw [hreq]
    norm_num [scan, scanStep]
  · dsimp only
    rw [hreq]
    norm_num [scan, scanStep]

/-- Witness of C10: scenario A with the percentile routine of the statistics package. -/
theorem scenario_A_witness :
    ∃ m0 m1 m d, NewCapa 2 1 = .ok m0 ∧ add m0 200 (1 / 10) 0 = .ok m1 ∧
      add m1 200 (3 / 10) 0 = .ok m ∧ m.Data Percentile = .ok d ∧
      d.Request.Count = 2 ∧ mapGet d.Request.StatusCount 200 = 2 ∧
      d.Response.MinTime = 1 / 10 ∧ d.Response.MaxTime = 3 / 10 ∧
      d.Response.AverageTime = 2 / 10 :=
  scenario_A Percentile Percentile_ok

/-! ## Further facts about the snapshot -/

theorem sliceGet_mem {α : Type} (xs : List α) (i : Int) (v : α)
    (h : sliceGet xs i = .ok v) : v ∈ xs := by
  cases i with
  | ofNat n =>
    simp only [sliceGet] at h
    cases hx : xs[n]? with
    | none => rw [hx] at h; exact Result.noConfusion h
    | some w =>
      rw [hx] at h
      have hw : w = v := Result.ok.inj h
      rw [← hw]
      exact List.getElem?_mem hx
  | negSucc n => exact Result.noConfusion h

theorem Percentile_inRange : PercentileInRange Percentile := by
  intro xs p v h
  have hmem : ∀ w, w ∈ xs.insertionSort (fun a b => a ≤ b) → w ∈ xs := fun w hw =>
    (List.perm_insertionSort (fun a b => a ≤ b) xs).mem_iff.mp hw
  unfold Percentile at h
  dsimp only at h
  by_cases h1 : xs.length = 0
  · rw [if_pos h1] at h
    exact Result.noConfusion h
  rw [if_neg h1] at h
  by_cases h2 : p < 0 ∨ p > 100
  · rw [if_pos h2] at h
    exact Result.noConfusion h
  rw [if_neg h2] at h
  cases ha : sliceGet (xs.insertionSort (fun a b => a ≤ b))
      ⌊p / 100 * (((xs.insertionSort (fun a b => a ≤ b)).length : ℚ) - 1)⌋ with
  | err e => rw [ha] at h; exact Result.noConfusion h
  | panic => rw [ha] at h; exact Result.noConfusion h
  | ok a =>
    rw [ha] at h
    have hva : a ∈ xs := hmem a (sliceGet_mem _ _ a ha)
    dsimp only at h
    split_ifs at h with h3
    · have hv : v = a := (Result.ok.inj h).symm
      rw [hv]
      exact ⟨⟨a, hva, le_refl a⟩, ⟨a, hva, le_refl a⟩⟩
    · cases hb : sliceGet (xs.insertionSort (fun a b => a ≤ b))
          (⌊p / 100 * (((xs.insertionSort (fun a b => a ≤ b)).length : ℚ) - 1)⌋ + 1) with
      | err e => rw [hb] at h; exact Result.noConfusion h
      | panic => rw [hb] at h; exact Result.noConfusion h
      | ok b =>
        rw [hb] at h
        have hvb : b ∈ xs := hmem b (sliceGet_mem _ _ b hb)
        have hv := (Result.ok.inj h).symm
        have hf0 := Int.floor_le
          (p / 100 * (((xs.insertionSort (fun a b => a ≤ b)).length : ℚ) - 1))
        have hf1 := Int.lt_floor_add_one
          (p / 100 * (((xs.insertionSort (fun a b => a ≤ b)).length : ℚ) - 1))
        rcases le_total a b with hab | hab
        · exact ⟨⟨a, hva, by rw [hv]; nlinarith⟩, ⟨b, hvb, by rw [hv]; nlinarith⟩⟩
        · exact ⟨⟨b, hvb, by rw [hv]; nlinarith⟩, ⟨a, hva, by rw [hv]; nlinarith⟩⟩

/-- The snapshot of a well-formed state, with the three percentile calls it is made of. -/
theorem Data_ok_values (pct : List ℚ → ℚ → Result ℚ) (m : Metrics) (hm : WF m)
    (hp : PercentileOK pct) :
    ∃ v90 v95 v99 : ℚ,
      pct m.requests ((90 : Int) : ℚ) = .ok v90 ∧ pct m.requests ((95 : Int) : ℚ) = .ok v95 ∧
      pct m.requests ((99 : Int) : ℚ) = .ok v99 ∧
      m.Data pct = .ok
        { Request :=
            { Count := m.count
              StatusCount :=
                httpStatuses.map (fun status => (status, m.statusCount.getD status.toNat 0)) }
          Response :=
            { MaxTime := (scan m.requests).maxTime
              MinTime := (scan m.requests).minTime
              AverageTime := (scan m.requests).totalResponseTime / (m.requests.length : ℚ)
              PercentiledTime := [(90, v90), (95, v95), (99, v99)] } } := by
  obtain ⟨v90, h90⟩ := hp m.requests hm.bufLen 90 (by decide)
  obtain ⟨v95, h95⟩ := hp m.requests hm.bufLen 95 (by decide)
  obtain ⟨v99, h99⟩ := hp m.requests hm.bufLen 99 (by decide)
  refine ⟨v90, v95, v99, h90, h95, h99, ?_⟩
  have hl : percentileLoop pct m.requests percents []
      = .ok [(90, v90), (95, v95), (99, v99)] := by
    simp only [percents, percentileLoop, h90, h95, h99]
    simp [mapSet]
  simp only [Metrics.Data, hl, statusLoop_ok m.statusCount hm.statusLen]
  simp

theorem scan_mean_bounds (l : List ℚ) (hl : 0 < l.length) :
    (scan l).minTime ≤ (scan l).totalResponseTime / (l.length : ℚ) ∧
    (scan l).totalResponseTime / (l.length : ℚ) ≤ (scan l).maxTime := by
  have hpos : (0 : ℚ) < (l.length : ℚ) := by exact_mod_cast hl
  have hmax := (scan_foldl_max_ge l
    { totalResponseTime := 0, maxTime := 0, minTime := MaxFloat64 }).2
  have hmin := (scan_foldl_min_le l
    { totalResponseTime := 0, maxTime := 0, minTime := MaxFloat64 }).2
  have h1 : l.sum ≤ l.length • (scan l).maxTime := List.sum_le_card_nsmul l _ hmax
  have h2 : l.length • (scan l).minTime ≤ l.sum := List.card_nsmul_le_sum l _ hmin
  rw [nsmul_eq_mul] at h1 h2
  rw [scan_total]
  constructor
  · rw [le_div_iff₀ hpos]
    linarith
  · rw [div_le_iff₀ hpos]
    linarith

/-! ## Claims, continued -/

/-- C11: a freshly constructed Metrics (any `bufsize >= 2`, any `factor >= 1`, no `add`)
reports `Count = 0`, every allowlisted `StatusCount` 0, and `MinTime`, `MaxTime`,
`AverageTime` and the percentiles 90, 95 and 99 all 0, the buffer being zero-filled (the
percentile routine returning a value within the range of its input). -/
theorem fresh_snapshot_zero (bufsize factor : Int) (m0 : Metrics)
    (pct : List ℚ → ℚ → Result ℚ) (hp : PercentileOK pct) (hr : PercentileInRange pct)
    (h0 : NewCapa bufsize factor = .ok m0) :
    ∃ d, m0.Data pct = .ok d ∧ d.Request.Count = 0 ∧
      (∀ code ∈ [200, 400, 401, 403, 404, 500, 501, 502, 503, 504],
        mapGet d.Request.StatusCount code = 0) ∧
      d.Response.MinTime = 0 ∧ d.Response.MaxTime = 0 ∧ d.Response.AverageTime = 0 ∧
      ∀ p ∈ [90, 95, 99], mapGet d.Response.PercentiledTime p = 0 := by
  obtain ⟨hb, hf, rfl⟩ := NewCapa_eq_ok bufsize factor m0 h0
  have hw := fresh_WF bufsize factor hb hf
  obtain ⟨v90, v95, v99, h90, h95, h99, hd⟩ := Data_ok_values pct _ hw hp
  have hreq : (fresh bufsize factor).requests = List.replicate bufsize.toNat 0 := rfl
  have hz : ∀ v ∈ (fresh bufsize factor).requests, v = 0 := by
    intro v hv
    rw [hreq] at hv
    exact List.eq_of_mem_replicate hv
  have hne : (fresh bufsize factor).requests ≠ [] := by
    intro e
    have h2 := hw.bufLen
    rw [e] at h2
    simp at h2
  have hbounds : ∀ v ∈ (fresh bufsize factor).requests, 0 ≤ v ∧ v ≤ MaxFloat64 := by
    intro v hv
    rw [hz v hv]
    exact ⟨le_refl 0, MaxFloat64_nonneg⟩
  obtain ⟨⟨hmaxmem, _⟩, ⟨hminmem, _⟩⟩ := scan_extrema _ hne hbounds
  have hmax : (scan (fresh bufsize factor).requests).maxTime = 0 := hz _ hmaxmem
  have hmin : (scan (fresh bufsize factor).requests).minTime = 0 := hz _ hminmem
  have havg : (scan (fresh bufsize factor).requests).totalResponseTime
      / ((fresh bufsize factor).requests.length : ℚ) = 0 := by
    have hlen : 0 < (fresh bufsize factor).requests.length := by
      have := hw.bufLen
      omega
    obtain ⟨h1, h2⟩ := scan_mean_bounds _ hlen
    rw [hmin] at h1
    rw [hmax] at h2
    exact le_antisymm h2 h1
  have hzero : ∀ (p v : ℚ), pct (fresh bufsize factor).requests p = .ok v → v = 0 := by
    intro p v hv
    obtain ⟨⟨a, ha, hav⟩, ⟨b, hbm, hvb⟩⟩ := hr _ p v hv
    rw [hz a ha] at hav
    rw [hz b hbm] at hvb
    exact le_antisymm hvb hav
  refine ⟨_, hd, rfl, ?_, hmin, hmax, havg, ?_⟩
  · intro code hcode
    have hmem : code ∈ httpStatuses := hcode
    dsimp only
    rw [mapGet_map_self, if_pos hmem, fresh_statusCount_getD]
  · intro p hp90
    dsimp only
    rw [hzero _ v90 h90, hzero _ v95 h95, hzero _ v99 h99]
    simp only [List.mem_cons, List.mem_singleton, List.mem_nil_iff, or_false] at hp90
    rcases hp90 with rfl | rfl | rfl <;> simp [mapGet]

/-- Witness of C11: `NewCapa(3, 2)` with the percentile routine of the statistics
package. -/
theorem fresh_snapshot_zero_witness :
    ∃ d, (fresh 3 2).Data Percentile = .ok d ∧ d.Request.Count = 0 ∧
      (∀ code ∈ [200, 400, 401, 403, 404, 500, 501, 502, 503, 504],
        mapGet d.Request.StatusCount code = 0) ∧
      d.Response.MinTime = 0 ∧ d.Response.MaxTime = 0 ∧ d.Response.AverageTime = 0 ∧
      ∀ p ∈ [90, 95, 99], mapGet d.Response.PercentiledTime p = 0 :=
  fresh_snapshot_zero 3 2 (fresh 3 2) Percentile Percentile_ok Percentile_inRange
    (NewCapa_ok 3 2 (by decide) (by decide) (by decide))

/-- C13: `New()` never fails and is `NewCapa(DefaultBufferSize, DefaultSamplingFactor)`,
that is `NewCapa(1000, 1)`: the buffer has exactly 1000 slots and the factor is 1. -/
theorem New_defaults :
    New = NewCapa DefaultBufferSize DefaultSamplingFactor ∧
    DefaultBufferSize = 1000 ∧ DefaultSamplingFactor = 1 ∧
    ∃ m, New = .ok m ∧ m.requests.length = 1000 ∧ m.factor = 1 := by
  refine ⟨rfl, rfl, rfl, fresh 1000 1, NewCapa_ok 1000 1 (by decide) (by decide) (by decide), ?_, rfl⟩
  simp only [fresh, List.length_replicate]
  rfl

/-! ## The arithmetic of `float64` -/

theorem floor_eq_of_bounds (y : ℚ) (f : Int) (h1 : (f : ℚ) ≤ y) (h2 : y < (f : ℚ) + 1) :
    ⌊y⌋ = f :=
  Int.floor_eq_iff.mpr ⟨h1, h2⟩

theorem roundHalfEven_of_lt (y : ℚ) (f : Int) (h1 : (f : ℚ) ≤ y) (h2 : y < (f : ℚ) + 1 / 2) :
    roundHalfEven y = f := by
  have hf : ⌊y⌋ = f := floor_eq_of_bounds y f h1 (by linarith)
  unfold roundHalfEven
  rw [hf, if_pos (by linarith)]

theorem roundHalfEven_of_gt (y : ℚ) (f : Int) (h1 : (f : ℚ) + 1 / 2 < y)
    (h2 : y < (f : ℚ) + 1) : roundHalfEven y = f + 1 := by
  have hf : ⌊y⌋ = f := floor_eq_of_bounds y f (by linarith) h2
  unfold roundHalfEven
  rw [hf, if_neg (by linarith), if_pos (by linarith)]

theorem roundHalfEven_of_tie_odd (y : ℚ) (f : Int) (h : y = (f : ℚ) + 1 / 2)
    (hodd : f % 2 = 1) : roundHalfEven y = f + 1 := by
  have hf : ⌊y⌋ = f := floor_eq_of_bounds y f (by linarith) (by linarith)
  have hne : ¬ f % 2 = 0 := by omega
  unfold roundHalfEven
  rw [hf, if_neg (by linarith), if_neg (by linarith), if_neg hne]

theorem roundFloat64_of_log (x : ℚ) (k : Int) (hx : 0 < x) (hlo : (2 : ℚ) ^ k ≤ x)
    (hhi : x < (2 : ℚ) ^ (k + 1)) (hk : -1022 ≤ k) :
    roundFloat64 x = (roundHalfEven (x / 2 ^ (k - 52)) : ℚ) * 2 ^ (k - 52) := by
  have habs : |x| = x := abs_of_pos hx
  have hlog : Int.log 2 x = k := by
    apply le_antisymm
    · have h := (@Int.lt_zpow_iff_log_lt ℚ _ _ 2 (by decide) (k + 1) x hx).mp
        (by exact_mod_cast hhi)
      omega
    · exact (@Int.zpow_le_iff_le_log ℚ _ _ 2 (by decide) k x hx).mp
        (by exact_mod_cast hlo)
  have hmax : max (k - 52) (-1074) = k - 52 := max_eq_left (by omega)
  unfold roundFloat64
  rw [if_neg hx.ne', habs, hlog, hmax]

theorem roundFloat64_tenth : roundFloat64 (0 + float64Tenth) = float64Tenth := by
  rw [roundFloat64_of_log (0 + float64Tenth) (-4) (by norm_num [float64Tenth])
    (by norm_num [float64Tenth]) (by norm_num [float64Tenth]) (by decide),
    roundHalfEven_of_lt _ 7205759403792794 (by norm_num [float64Tenth])
      (by norm_num [float64Tenth])]
  norm_num [float64Tenth]

theorem roundFloat64_two_tenths :
    roundFloat64 (float64Tenth + float64Tenth) = 3602879701896397 / 18014398509481984 := by
  rw [roundFloat64_of_log (float64Tenth + float64Tenth) (-3) (by norm_num [float64Tenth])
    (by norm_num [float64Tenth]) (by norm_num [float64Tenth]) (by decide),
    roundHalfEven_of_lt _ 7205759403792794 (by norm_num [float64Tenth])
      (by norm_num [float64Tenth])]
  norm_num

theorem roundFloat64_three_tenths :
    roundFloat64 (3602879701896397 / 18014398509481984 + float64Tenth)
      = 1351079888211149 / 4503599627370496 := by
  rw [roundFloat64_of_log (3602879701896397 / 18014398509481984 + float64Tenth) (-2)
    (by norm_num [float64Tenth]) (by norm_num [float64Tenth]) (by norm_num [float64Tenth])
    (by decide),
    roundHalfEven_of_tie_odd _ 5404319552844595 (by norm_num [float64Tenth]) (by decide)]
  norm_num

theorem roundFloat64_three : roundFloat64 ((3 : Nat) : ℚ) = 3 := by
  rw [roundFloat64_of_log ((3 : Nat) : ℚ) 1 (by norm_num) (by norm_num) (by norm_num)
    (by decide),
    roundHalfEven_of_lt _ 6755399441055744 (by norm_num) (by norm_num)]
  norm_num

theorem roundFloat64_quotient :
    roundFloat64 (1351079888211149 / 4503599627370496 / 3)
      = 7205759403792795 / 72057594037927936 := by
  rw [roundFloat64_of_log (1351079888211149 / 4503599627370496 / 3) (-4) (by norm_num)
    (by norm_num) (by norm_num) (by decide),
    roundHalfEven_of_gt _ 7205759403792794 (by norm_num) (by norm_num)]
  norm_num

theorem averageFloat64_three_tenths :
    averageFloat64 [float64Tenth, float64Tenth, float64Tenth]
      = 7205759403792795 / 72057594037927936 := by
  simp only [averageFloat64, List.foldl_cons, List.foldl_nil, addFloat64, divFloat64,
    List.length_cons, List.length_nil, roundFloat64_tenth, roundFloat64_two_tenths,
    roundFloat64_three_tenths]
  rw [roundFloat64_three, roundFloat64_quotient]

/-- C19, as stated, fails on the code: after three latencies of 0.1 (the `float64`) on a
Metrics of capacity 3, `MaxTime` is 0.1 while the `AverageTime` the code computes, by
three rounded additions and one rounded division, is `7205759403792795 / 2^56`
(0.10000000000000002), above `MaxTime`. -/
theorem average_above_max_counterexample :
    ∃ m0 m d, NewCapa 3 1 = .ok m0 ∧
      addAll m0 [⟨200, float64Tenth, 0⟩, ⟨200, float64Tenth, 0⟩, ⟨200, float64Tenth, 0⟩]
        = .ok m ∧
      m.Data Percentile = .ok d ∧
      m.requests = [float64Tenth, float64Tenth, float64Tenth] ∧
      d.Response.MaxTime = float64Tenth ∧
      averageFloat64 m.requests = 7205759403792795 / 72057594037927936 ∧
      d.Response.MaxTime < averageFloat64 m.requests := by
  have hw := fresh_WF 3 1 (by decide) (by decide)
  have hwm := addAllResult_WF (fresh 3 1)
    [⟨200, float64Tenth, 0⟩, ⟨200, float64Tenth, 0⟩, ⟨200, float64Tenth, 0⟩] hw
  obtain ⟨v90, v95, v99, hd⟩ := Data_ok Percentile _ hwm Percentile_ok
  have hreq : (addAllResult (fresh 3 1)
      [⟨200, float64Tenth, 0⟩, ⟨200, float64Tenth, 0⟩, ⟨200, float64Tenth, 0⟩]).requests
      = [float64Tenth, float64Tenth, float64Tenth] := rfl
  have hmax : (scan (addAllResult (fresh 3 1)
      [⟨200, float64Tenth, 0⟩, ⟨200, float64Tenth, 0⟩, ⟨200, float64Tenth, 0⟩]).requests).maxTime
      = float64Tenth := by
    rw [hreq]
    norm_num [scan, scanStep, float64Tenth]
  refine ⟨_, _, _, NewCapa_ok 3 1 (by decide) (by decide) (by decide),
    addAll_ok _ _ hw (by decide), hd, hreq, hmax, ?_, ?_⟩
  · rw [hreq]
    exact averageFloat64_three_tenths
  · dsimp only
    rw [hmax, hreq, averageFloat64_three_tenths]
    norm_num [float64Tenth]

/-- C19, amended: in every reachable state, for whatever latencies were recorded,
`MinTime <= MaxTime` and the exact mean of the buffer slots (their sum over the capacity,
as real numbers) lies between `MinTime` and `MaxTime`. -/
theorem mean_between_min_and_max (bufsize factor : Int) (m0 : Metrics) (calls : List Call)
    (pct : List ℚ → ℚ → Result ℚ) (hp : PercentileOK pct)
    (h0 : NewCapa bufsize factor = .ok m0) (hc : ∀ c ∈ calls, ValidCall factor c) :
    ∃ m d, addAll m0 calls = .ok m ∧ m.Data pct = .ok d ∧
      d.Response.MinTime ≤ d.Response.MaxTime ∧
      d.Response.MinTime ≤ m.requests.sum / (m.requests.length : ℚ) ∧
      m.requests.sum / (m.requests.length : ℚ) ≤ d.Response.MaxTime := by
  obtain ⟨hb, hf, rfl⟩ := NewCapa_eq_ok bufsize factor m0 h0
  have hw := fresh_WF bufsize factor hb hf
  have hc2 : ∀ c ∈ calls, 0 ≤ c.statusCode ∧ c.statusCode < 1000 :=
    fun c hmem => ⟨(hc c hmem).1, (hc c hmem).2.1⟩
  have hwm := addAllResult_WF (fresh bufsize factor) calls hw
  obtain ⟨v90, v95, v99, hd⟩ := Data_ok pct _ hwm hp
  have hlen : 0 < (addAllResult (fresh bufsize factor) calls).requests.length := by
    have := hwm.bufLen
    omega
  obtain ⟨h1, h2⟩ := scan_mean_bounds _ hlen
  rw [scan_total] at h1 h2
  exact ⟨_, _, addAll_ok _ calls hw hc2, hd, le_trans h1 h2, h1, h2⟩

/-- Witness of C19: two latencies, 0.1 and 0.3, on `NewCapa(2, 1)`. -/
theorem mean_between_min_and_max_witness :
    ∃ m d, addAll (fresh 2 1) [⟨200, 1 / 10, 0⟩, ⟨500, 3 / 10, 0⟩] = .ok m ∧
      m.Data Percentile = .ok d ∧
      d.Response.MinTime ≤ d.Response.MaxTime ∧
      d.Response.MinTime ≤ m.requests.sum / (m.requests.length : ℚ) ∧
      m.requests.sum / (m.requests.length : ℚ) ≤ d.Response.MaxTime :=
  mean_between_min_and_max 2 1 (fresh 2 1) [⟨200, 1 / 10, 0⟩, ⟨500, 3 / 10, 0⟩] Percentile
    Percentile_ok (NewCapa_ok 2 1 (by decide) (by decide) (by decide)) (by decide)

/-! ## States reached by `add` -/

theorem add_eq_ok (m m1 : Metrics) (statusCode : Int) (t : ℚ) (draw : Int) (hm : WF m)
    (h : add m statusCode t draw = .ok m1) :
    0 ≤ statusCode ∧ statusCode < 1000 ∧ m1 = addResult m statusCode t draw := by
  by_cases hr : statusCode < 0 ∨ 1000 ≤ statusCode
  · rw [add_panic m statusCode t draw hm hr] at h
    exact Result.noConfusion h
  · have h0 : 0 ≤ statusCode := by omega
    have h1 : statusCode < 1000 := by omega
    rw [add_ok m statusCode t draw hm h0 h1] at h
    exact ⟨h0, h1, (Result.ok.inj h).symm⟩

theorem addAll_eq_ok_WF (m m1 : Metrics) (calls : List Call) (hm : WF m)
    (h : addAll m calls = .ok m1) : WF m1 := by
  induction calls generalizing m with
  | nil =>
    have e : m = m1 := Result.ok.inj h
    rw [← e]
    exact hm
  | cons c cs ih =>
    simp only [addAll] at h
    cases hx : add m c.statusCode c.t c.draw with
    | ok m2 =>
      rw [hx] at h
      obtain ⟨_, _, e⟩ := add_eq_ok m m2 c.statusCode c.t c.draw hm hx
      exact ih m2 (by rw [e]; exact addResult_WF m c.statusCode c.t c.draw hm) h
    | err e => rw [hx] at h; exact Result.noConfusion h
    | panic => rw [hx] at h; exact Result.noConfusion h

theorem PercentileOK_of_failsOnly (pct : List ℚ → ℚ → Result ℚ)
    (hfail : PercentileFailsOnly pct) : PercentileOK pct := by
  intro xs hlen p hp
  by_contra hcon
  have hn : (2 : ℚ) ≤ (xs.length : ℚ) := by exact_mod_cast hlen
  have hp2 : (90 : ℚ) ≤ (p : ℚ) ∧ (p : ℚ) ≤ 99 := by
    simp only [percents, List.mem_cons, List.mem_singleton, List.mem_nil_iff, or_false] at hp
    rcases hp with rfl | rfl | rfl <;> norm_num
  rcases hfail xs (p : ℚ) hcon with h | h | h | ⟨_, h⟩
  · omega
  · linarith [hp2.1]
  · linarith [hp2.2]
  · have h3 : (90 : ℚ) * 2 ≤ (p : ℚ) * (xs.length : ℚ) :=
      mul_le_mul hp2.1 hn (by norm_num) (by linarith [hp2.1])
    linarith

theorem Percentile_failsOnly : PercentileFailsOnly Percentile := by
  intro xs p hcon
  by_cases h1 : xs.length = 0
  · exact Or.inl h1
  by_cases h2 : p ≤ 0
  · exact Or.inr (Or.inl h2)
  by_cases h3 : 100 < p
  · exact Or.inr (Or.inr (Or.inl h3))
  exact absurd (Percentile_returns xs p h1 (by linarith) (by linarith)) hcon

theorem percentileLoopSt_pure (pctSt : List ℚ → ℚ → List ℚ × Result ℚ)
    (hpure : ∀ xs p, (pctSt xs p).1 = xs) (m : Metrics) (ps : List Int)
    (acc : List (Int × ℚ)) :
    percentileLoopSt pctSt m ps acc
      = (m, percentileLoop (fun xs p => (pctSt xs p).2) m.requests ps acc) := by
  induction ps generalizing acc with
  | nil => rfl
  | cons p ps ih =>
    have h1 := hpure m.requests (p : ℚ)
    cases hx : pctSt m.requests (p : ℚ) with
    | mk requests r =>
      rw [hx] at h1
      have h2 : requests = m.requests := h1
      subst h2
      cases r with
      | ok v =>
        simp only [percentileLoopSt, percentileLoop, hx]
        exact ih _
      | err e => simp only [percentileLoopSt, percentileLoop, hx]
      | panic => simp only [percentileLoopSt, percentileLoop, hx]

theorem DataSt_pure (pctSt : List ℚ → ℚ → List ℚ × Result ℚ)
    (hpure : ∀ xs p, (pctSt xs p).1 = xs) (m : Metrics) :
    m.DataSt pctSt = (m, m.Data (fun xs p => (pctSt xs p).2)) := by
  unfold Metrics.DataSt Metrics.Data
  rw [percentileLoopSt_pure pctSt hpure m percents []]
  dsimp only
  cases h1 : percentileLoop (fun xs p => (pctSt xs p).2) m.requests percents [] with
  | ok pt =>
    dsimp only
    cases h2 : statusLoop m.statusCount httpStatuses [] with
    | ok sc => rfl
    | err e => rfl
    | panic => rfl
  | err e => rfl
  | panic => rfl

/-- C12: `Data` leaves the accumulator state (count, status counts, buffer, cursor,
factor) as it was, whether it returns a snapshot, an error or panics, and returns what
the pure reading of the state gives; so two consecutive `Data` calls return the same
result.  The percentile routine is taken not to modify the slice it receives (the
statistics package sorts a copy). -/
theorem Data_leaves_state (pctSt : List ℚ → ℚ → List ℚ × Result ℚ)
    (hpure : ∀ xs p, (pctSt xs p).1 = xs) (m : Metrics) :
    (m.DataSt pctSt).1 = m ∧
    (m.DataSt pctSt).2 = m.Data (fun xs p => (pctSt xs p).2) ∧
    ((m.DataSt pctSt).1.DataSt pctSt).2 = (m.DataSt pctSt).2 := by
  have h := DataSt_pure pctSt hpure m
  refine ⟨by rw [h], by rw [h], ?_⟩
  have h1 : (m.DataSt pctSt).1 = m := by rw [h]
  rw [h1]

/-- Witness of C12: a failing snapshot (empty buffer, so the percentile routine returns
its empty-input error) and a succeeding one both leave the state as it was. -/
theorem Data_leaves_state_witness :
    ((⟨3, [], [], 1, 0⟩ : Metrics).DataSt PercentileSt).1 = ⟨3, [], [], 1, 0⟩ ∧
    ((⟨3, [], [], 1, 0⟩ : Metrics).DataSt PercentileSt).2 = .err "Input must not be empty." ∧
    ((fresh 2 1).DataSt PercentileSt).1 = fresh 2 1 := by
  have h1 := Data_leaves_state PercentileSt (fun _ _ => rfl) ⟨3, [], [], 1, 0⟩
  have h2 := Data_leaves_state PercentileSt (fun _ _ => rfl) (fresh 2 1)
  refine ⟨h1.1, ?_, h2.1⟩
  rw [h1.2.1]
  simp [Metrics.Data, percentileLoop, percents, PercentileSt, Percentile]

/-- C18: for every Metrics obtained from `NewCapa` and any sequence of `add` calls,
`Data` returns a snapshot (no error, no panic) whose `PercentiledTime` has exactly the keys
90, 95 and 99, provided the percentile routine fails only on an empty input, a rank
outside `(0, 100]`, or a non-integral `rank * len / 100` that is at most 1. -/
theorem Data_never_fails (pct : List ℚ → ℚ → Result ℚ) (hfail : PercentileFailsOnly pct)
    (bufsize factor : Int) (m0 m : Metrics) (calls : List Call)
    (h0 : NewCapa bufsize factor = .ok m0) (hm : addAll m0 calls = .ok m) :
    ∃ d, m.Data pct = .ok d ∧ (mapKeys d.Response.PercentiledTime).Nodup ∧
      ∀ k, k ∈ mapKeys d.Response.PercentiledTime ↔ k ∈ [90, 95, 99] := by
  obtain ⟨hb, hf, rfl⟩ := NewCapa_eq_ok bufsize factor m0 h0
  have hw := fresh_WF bufsize factor hb hf
  have hwm := addAll_eq_ok_WF _ m calls hw hm
  obtain ⟨v90, v95, v99, hd⟩ := Data_ok pct m hwm (PercentileOK_of_failsOnly pct hfail)
  refine ⟨_, hd, ?_, ?_⟩
  · show ([90, 95, 99] : List Int).Nodup
    decide
  · intro k
    exact Iff.rfl

/-- Witness of C18: one call on `NewCapa(2, 1)` with the percentile routine of the
statistics package. -/
theorem Data_never_fails_witness :
    ∃ d, (addAllResult (fresh 2 1) [⟨200, 1 / 10, 0⟩]).Data Percentile = .ok d ∧
      (mapKeys d.Response.PercentiledTime).Nodup ∧
      ∀ k, k ∈ mapKeys d.Response.PercentiledTime ↔ k ∈ [90, 95, 99] :=
  Data_never_fails Percentile Percentile_failsOnly 2 1 (fresh 2 1)
    (addAllResult (fresh 2 1) [⟨200, 1 / 10, 0⟩]) [⟨200, 1 / 10, 0⟩]
    (NewCapa_ok 2 1 (by decide) (by decide) (by decide))
    (addAll_ok _ _ (fresh_WF 2 1 (by decide) (by decide)) (by decide))

/-! ## The total counter and the status buckets -/

theorem sum_set_succ (l : List Int) (i : Nat) (h : i < l.length) :
    (l.set i (l.getD i 0 + 1)).sum = l.sum + 1 := by
  induction l generalizing i with
  | nil => exact absurd h (by simp)
  | cons x xs ih =>
    cases i with
    | zero =>
      simp only [List.set_cons_zero, List.sum_cons, List.getD_cons_zero]
      ring
    | succ i =>
      have h2 : i < xs.length := by simpa using h
      simp only [List.set_cons_succ, List.sum_cons, List.getD_cons_succ, ih i h2]
      ring

theorem addAllResult_count_eq_sum (m : Metrics) (calls : List Call) (hm : WF m)
    (hsum : m.count = m.statusCount.sum)
    (hc : ∀ c ∈ calls, 0 ≤ c.statusCode ∧ c.statusCode < 1000) :
    (addAllResult m calls).count = (addAllResult m calls).statusCount.sum := by
  induction calls generalizing m with
  | nil => exact hsum
  | cons c cs ih =>
    have h := hc c (List.mem_cons_self c cs)
    have hlt : c.statusCode.toNat < m.statusCount.length := by
      rw [hm.statusLen]
      omega
    apply ih _ (addResult_WF m c.statusCode c.t c.draw hm) _
      (fun k hk => hc k (List.mem_cons_of_mem c hk))
    show m.count + 1 = (m.statusCount.set c.statusCode.toNat
      (m.statusCount.getD c.statusCode.toNat 0 + 1)).sum
    rw [sum_set_succ _ _ hlt, hsum]

theorem sum_indicator (l : List Int) (hl : l.Nodup) (x : Int) :
    (l.map (fun s => if x = s then (1 : Int) else 0)).sum = if x ∈ l then 1 else 0 := by
  induction l with
  | nil => simp
  | cons y ys ih =>
    obtain ⟨hy, hys⟩ := List.nodup_cons.mp hl
    rw [List.map_cons, List.sum_cons, ih hys]
    by_cases hxy : x = y
    · subst hxy
      simp [hy]
    · have hne : ¬ y = x := fun e => hxy e.symm
      by_cases hmem : x ∈ ys
      · simp [hxy, hmem]
      · simp [hxy, hmem]

/-- Over a duplicate-free list of codes, the per-code call counts add up to the number
of calls whose status code is in the list. -/
theorem sum_callsWith (l : List Int) (hl : l.Nodup) (calls : List Call) :
    (l.map (fun s => (callsWith s calls : Int))).sum
      = ((calls.filter (fun c => decide (c.statusCode ∈ l))).length : Int) := by
  induction calls with
  | nil => simp [callsWith]
  | cons c cs ih =>
    have hfun : (fun s => (callsWith s (c :: cs) : Int))
        = (fun s => (if c.statusCode = s then (1 : Int) else 0) + (callsWith s cs : Int)) := by
      funext s
      rw [callsWith_cons]
      by_cases h : c.statusCode = s <;> simp [h]
    rw [hfun, List.sum_map_add, ih, sum_indicator l hl]
    by_cases hmem : c.statusCode ∈ l
    · simp [List.filter_cons, hmem]
      ring
    · simp [List.filter_cons, hmem]

/-- C16: in every reachable state (calls with codes in `0..999`) the total counter equals
the sum of all 1000 status buckets; hence `Request.Count` is at least the sum of the ten
reported `StatusCount` values, with equality exactly when every recorded status code
was in the allowlist. -/
theorem count_eq_sum_of_buckets (bufsize factor : Int) (m0 : Metrics) (calls : List Call)
    (pct : List ℚ → ℚ → Result ℚ) (hp : PercentileOK pct)
    (h0 : NewCapa bufsize factor = .ok m0) (hc : ∀ c ∈ calls, ValidCall factor c) :
    ∃ m d, addAll m0 calls = .ok m ∧ m.Data pct = .ok d ∧
      m.statusCount.length = 1000 ∧ m.count = m.statusCount.sum ∧
      (d.Request.StatusCount.map Prod.snd).sum ≤ d.Request.Count ∧
      ((d.Request.StatusCount.map Prod.snd).sum = d.Request.Count ↔
        ∀ c ∈ calls, c.statusCode ∈ [200, 400, 401, 403, 404, 500, 501, 502, 503, 504]) := by
  obtain ⟨hb, hf, rfl⟩ := NewCapa_eq_ok bufsize factor m0 h0
  have hw := fresh_WF bufsize factor hb hf
  have hc2 : ∀ c ∈ calls, 0 ≤ c.statusCode ∧ c.statusCode < 1000 :=
    fun c hmem => ⟨(hc c hmem).1, (hc c hmem).2.1⟩
  have hwm := addAllResult_WF (fresh bufsize factor) calls hw
  obtain ⟨v90, v95, v99, hd⟩ := Data_ok pct _ hwm hp
  have hfresh : (fresh bufsize factor).count = (fresh bufsize factor).statusCount.sum := by
    simp only [fresh, List.sum_replicate, smul_zero]
  have hreported : ((httpStatuses.map (fun status =>
      (status, (addAllResult (fresh bufsize factor) calls).statusCount.getD status.toNat 0))).map
        Prod.snd).sum
      = ((calls.filter (fun c => decide (c.statusCode ∈ httpStatuses))).length : Int) := by
    rw [List.map_map, ← sum_callsWith httpStatuses (by decide) calls]
    congr 1
    apply List.map_congr_left
    intro code hcode
    have hcode0 : 0 ≤ code := by
      simp only [httpStatuses, List.mem_cons, List.mem_singleton, List.mem_nil_iff,
        or_false] at hcode
      omega
    show (addAllResult (fresh bufsize factor) calls).statusCount.getD code.toNat 0 = _
    rw [addAllResult_statusCount _ calls code hw hc2 hcode0, fresh_statusCount_getD, zero_add]
  have hcount : (addAllResult (fresh bufsize factor) calls).count = (calls.length : Int) := by
    rw [addAllResult_count]
    exact zero_add _
  refine ⟨_, _, addAll_ok _ calls hw hc2, hd, hwm.statusLen,
    addAllResult_count_eq_sum _ calls hw hfresh hc2, ?_, ?_⟩
  · dsimp only
    rw [hreported, hcount]
    exact_mod_cast List.length_filter_le _ calls
  · dsimp only
    rw [hreported, hcount]
    constructor
    · intro h c hmem
      have h2 : (calls.filter (fun c => decide (c.statusCode ∈ httpStatuses))).length
          = calls.length := by exact_mod_cast h
      have h3 := List.filter_length_eq_length.mp h2 c hmem
      exact of_decide_eq_true h3
    · intro h
      have h2 : (calls.filter (fun c => decide (c.statusCode ∈ httpStatuses))).length
          = calls.length :=
        List.filter_length_eq_length.mpr (fun c hmem => decide_eq_true (h c hmem))
      exact_mod_cast h2

/-- Witness of C16: three calls on `NewCapa(2, 2)`, one with the unlisted status 302. -/
theorem count_eq_sum_of_buckets_witness :
    ∃ m d, addAll (fresh 2 2) [⟨200, 1 / 10, 0⟩, ⟨302, 1 / 5, 1⟩, ⟨500, 1 / 2, 0⟩] = .ok m ∧
      m.Data Percentile = .ok d ∧ m.count = m.statusCount.sum ∧
      (d.Request.StatusCount.map Prod.snd).sum ≤ d.Request.Count := by
  obtain ⟨m, d, h1, h2, _, h4, h5, _⟩ := count_eq_sum_of_buckets 2 2 (fresh 2 2)
    [⟨200, 1 / 10, 0⟩, ⟨302, 1 / 5, 1⟩, ⟨500, 1 / 2, 0⟩] Percentile Percentile_ok
    (NewCapa_ok 2 2 (by decide) (by decide) (by decide)) (by decide)
  exact ⟨m, d, h1, h2, h4, h5⟩

/-! ## Buffer length and cursor -/

theorem percentileLoopSt_frame (pctSt : List ℚ → ℚ → List ℚ × Result ℚ)
    (hlen : ∀ xs p, (pctSt xs p).1.length = xs.length) (m : Metrics) (ps : List Int)
    (acc : List (Int × ℚ)) :
    (percentileLoopSt pctSt m ps acc).1.requests.length = m.requests.length ∧
    (percentileLoopSt pctSt m ps acc).1.reqIdx = m.reqIdx := by
  induction ps generalizing m acc with
  | nil => exact ⟨rfl, rfl⟩
  | cons p ps ih =>
    have h1 := hlen m.requests (p : ℚ)
    cases hx : pctSt m.requests (p : ℚ) with
    | mk requests r =>
      rw [hx] at h1
      cases r with
      | ok v =>
        simp only [percentileLoopSt, hx]
        obtain ⟨g1, g2⟩ := ih { m with requests := requests } (mapSet acc p v)
        exact ⟨g1.trans h1, g2⟩
      | err e =>
        simp only [percentileLoopSt, hx]
        exact ⟨h1, trivial⟩
      | panic =>
        simp only [percentileLoopSt, hx]
        exact ⟨h1, trivial⟩

theorem DataSt_fst (pctSt : List ℚ → ℚ → List ℚ × Result ℚ) (m : Metrics) :
    (m.DataSt pctSt).1 = (percentileLoopSt pctSt m percents []).1 := by
  unfold Metrics.DataSt
  dsimp only
  cases h1 : percentileLoopSt pctSt m percents [] with
  | mk m1 r =>
    cases r with
    | ok pt =>
      dsimp only
      cases h2 : statusLoop m1.statusCount httpStatuses [] with
      | ok sc => rfl
      | err e => rfl
      | panic => rfl
    | err e => rfl
    | panic => rfl

/-- C15: every operation keeps the buffer length at the `bufsize` given to `NewCapa` and
the write cursor inside `[0, bufsize)`.  `NewCapa` starts with `bufsize` slots and cursor
0; after any sequence of `add` calls (any draws) the length is `bufsize` and the cursor is
the number of latencies inserted so far modulo `bufsize`; `insertRequestBuffer` and `add`
return with the length unchanged and the cursor advanced by one modulo `bufsize` per
insert; `Data` leaves both as they are. -/
theorem buffer_invariant (bufsize factor : Int) (m0 : Metrics) (calls : List Call)
    (h0 : NewCapa bufsize factor = .ok m0) (hc : ∀ c ∈ calls, ValidCall factor c) :
    ∃ m, addAll m0 calls = .ok m ∧
      (m0.requests.length : Int) = bufsize ∧ m0.reqIdx = 0 ∧
      (m.requests.length : Int) = bufsize ∧ m.reqIdx < m.requests.length ∧
      m.reqIdx = (sampled calls).length % m.requests.length ∧
      (∀ t, ∃ m1, insertRequestBuffer m t = .ok m1 ∧
        m1.requests.length = m.requests.length ∧
        m1.reqIdx = (m.reqIdx + 1) % m.requests.length ∧
        m1.reqIdx < m1.requests.length) ∧
      (∀ (statusCode : Int) (t : ℚ) (d : Int), 0 ≤ statusCode → statusCode < 1000 →
        ∃ m1, add m statusCode t d = .ok m1 ∧
          m1.requests.length = m.requests.length ∧
          m1.reqIdx = (if d = 0 then (m.reqIdx + 1) % m.requests.length else m.reqIdx) ∧
          m1.reqIdx < m1.requests.length) ∧
      (∀ pctSt : List ℚ → ℚ → List ℚ × Result ℚ,
        (∀ xs p, (pctSt xs p).1.length = xs.length) →
        (m.DataSt pctSt).1.requests.length = m.requests.length ∧
        (m.DataSt pctSt).1.reqIdx = m.reqIdx) := by
  obtain ⟨hb, hf, rfl⟩ := NewCapa_eq_ok bufsize factor m0 h0
  have hw := fresh_WF bufsize factor hb hf
  have hc2 : ∀ c ∈ calls, 0 ≤ c.statusCode ∧ c.statusCode < 1000 :=
    fun c hmem => ⟨(hc c hmem).1, (hc c hmem).2.1⟩
  have hwm := addAllResult_WF (fresh bufsize factor) calls hw
  have hlen0 : (fresh bufsize factor).requests.length = bufsize.toNat := by
    simp only [fresh, List.length_replicate]
  have hlen : (addAllResult (fresh bufsize factor) calls).requests.length = bufsize.toNat := by
    rw [addAllResult_requests_length, hlen0]
  have hcast : ((bufsize.toNat : Nat) : Int) = bufsize := Int.toNat_of_nonneg (by omega)
  have hpos : 0 < (addAllResult (fresh bufsize factor) calls).requests.length := by
    have := hwm.bufLen
    omega
  refine ⟨_, addAll_ok _ calls hw hc2, by rw [hlen0, hcast], rfl, by rw [hlen, hcast],
    hwm.idxLt, by rw [hlen]; exact addAllResult_reqIdx bufsize factor calls, ?_, ?_, ?_⟩
  · intro t
    refine ⟨_, insertRequestBuffer_ok _ t hwm.idxLt, ?_, rfl, ?_⟩
    · simp only [List.length_set]
    · simp only [List.length_set]
      exact Nat.mod_lt _ hpos
  · intro statusCode t d hs0 hs1
    have hw1 := addResult_WF (addAllResult (fresh bufsize factor) calls) statusCode t d hwm
    refine ⟨_, add_ok _ statusCode t d hwm hs0 hs1, ?_, rfl, hw1.idxLt⟩
    by_cases hd : d = 0
    · simp only [addResult, if_pos hd, List.length_set]
    · simp only [addResult, if_neg hd]
  · intro pctSt hkeep
    rw [DataSt_fst]
    exact percentileLoopSt_frame pctSt hkeep _ percents []

/-- Witness of C15: after three calls on `NewCapa(2, 3)`, two of them sampled, the cursor
is back at `2 % 2 = 0`. -/
theorem buffer_invariant_witness :
    ∃ m, addAll (fresh 2 3) [⟨200, 1 / 10, 0⟩, ⟨200, 1 / 5, 2⟩, ⟨200, 3 / 10, 0⟩] = .ok m ∧
      (m.requests.length : Int) = 2 ∧ m.reqIdx < m.requests.length ∧
      m.reqIdx = 2 % m.requests.length := by
  obtain ⟨m, h1, _, _, h4, h5, h6, _⟩ := buffer_invariant 2 3 (fresh 2 3)
    [⟨200, 1 / 10, 0⟩, ⟨200, 1 / 5, 2⟩, ⟨200, 3 / 10, 0⟩]
    (NewCapa_ok 2 3 (by decide) (by decide) (by decide)) (by decide)
  exact ⟨m, h1, h4, h5, h6⟩

/-! ## The lock in `add` -/

theorem addTraced_snd (m : Metrics) (statusCode : Int) (t : ℚ) (draw : Int) :
    (addTraced m statusCode t draw).2 = add m statusCode t draw := by
  unfold addTraced add
  cases Intn m.factor draw with
  | ok r =>
    dsimp only
    by_cases hr : r = 0
    · rw [if_pos hr, if_pos hr]
      cases atomicAddAt m.statusCount statusCode 1 with
      | ok sc =>
        dsimp only
        cases insertRequestBuffer { m with count := m.count + 1, statusCount := sc } t with
        | ok m2 => rfl
        | err e => rfl
        | panic => rfl
      | err e => rfl
      | panic => rfl
    · rw [if_neg hr, if_neg hr]
      cases atomicAddAt m.statusCount statusCode 1 with
      | ok sc => rfl
      | err e => rfl
      | panic => rfl
  | err e => rfl
  | panic => rfl

theorem addTraced_fst (m : Metrics) (statusCode : Int) (t : ℚ) (draw : Int) (hm : WF m)
    (h0 : 0 ≤ statusCode) (h1 : statusCode < 1000) :
    (addTraced m statusCode t draw).1
      = if draw = 0 then
          [.lock, .addCount, .addStatus statusCode, .insertRequest t, .unlock]
        else [.addCount, .addStatus statusCode] := by
  have hf : ¬ m.factor ≤ 0 := by have := hm.factorPos; omega
  have hlen : statusCode < (m.statusCount.length : Int) := by rw [hm.statusLen]; exact h1
  by_cases hd : draw = 0
  · simp [addTraced, Intn, hf, hd, atomicAddAt_ok m.statusCount statusCode h0 hlen,
      insertRequestBuffer_ok, hm.idxLt]
  · simp [addTraced, Intn, hf, hd, atomicAddAt_ok m.statusCount statusCode h0 hlen]

theorem addTraced_out_of_range (m : Metrics) (statusCode : Int) (t : ℚ) (draw : Int)
    (hm : WF m) (h : statusCode < 0 ∨ 1000 ≤ statusCode) :
    addTraced m statusCode t draw
      = (if draw = 0 then [.lock, .addCount] else [.addCount], .panic) := by
  have hf : ¬ m.factor ≤ 0 := by have := hm.factorPos; omega
  have hlen : statusCode < 0 ∨ (m.statusCount.length : Int) ≤ statusCode := by
    rw [hm.statusLen]; exact h
  by_cases hd : draw = 0
  · simp [addTraced, Intn, hf, hd, atomicAddAt_panic m.statusCount statusCode hlen]
  · simp [addTraced, Intn, hf, hd, atomicAddAt_panic m.statusCount statusCode hlen]

/-- C14, as stated, fails: in a sampled `add` (draw 0, the only draw with factor 1) the
lock is taken first and both counter increments are performed while it is held. -/
theorem increments_under_lock_counterexample :
    ∃ m0, NewCapa 2 1 = .ok m0 ∧
      (addTraced m0 200 (1 / 10) 0).2 = add m0 200 (1 / 10) 0 ∧
      (addTraced m0 200 (1 / 10) 0).1
        = [.lock, .addCount, .addStatus 200, .insertRequest (1 / 10), .unlock] ∧
      incrementsUnlocked false (addTraced m0 200 (1 / 10) 0).1 = false := by
  have htrace := addTraced_fst (fresh 2 1) 200 (1 / 10) 0
    (fresh_WF 2 1 (by decide) (by decide)) (by decide) (by decide)
  rw [if_pos rfl] at htrace
  refine ⟨fresh 2 1, NewCapa_ok 2 1 (by decide) (by decide) (by decide),
    addTraced_snd _ _ _ _, htrace, ?_⟩
  rw [htrace]
  rfl

/-- C14, amended: in every reachable state, an `add` call with a status code in `0..999`
whose draw is not 0 performs the two counter increments without taking the lock at all;
one whose draw is 0 (every call when the factor is 1) takes the lock first, performs the
two increments and the buffer insert with cursor advance while holding it, and releases
it last.  (With a status code outside `0..999` the call panics at the status increment,
after the count increment and, when the draw is 0, with the lock taken and not
released.) -/
theorem lock_discipline (bufsize factor : Int) (m0 : Metrics) (calls : List Call)
    (h0 : NewCapa bufsize factor = .ok m0) (hc : ∀ c ∈ calls, ValidCall factor c) :
    ∃ m, addAll m0 calls = .ok m ∧
      (∀ (statusCode : Int) (t : ℚ) (d : Int), 0 ≤ statusCode → statusCode < 1000 →
        (addTraced m statusCode t d).2 = add m statusCode t d ∧
        (d ≠ 0 → (addTraced m statusCode t d).1 = [.addCount, .addStatus statusCode] ∧
          incrementsUnlocked false (addTraced m statusCode t d).1 = true) ∧
        (d = 0 → (addTraced m statusCode t d).1
          = [.lock, .addCount, .addStatus statusCode, .insertRequest t, .unlock]) ∧
        (m.factor = 1 → 0 ≤ d → d < m.factor → (addTraced m statusCode t d).1
          = [.lock, .addCount, .addStatus statusCode, .insertRequest t, .unlock])) ∧
      (∀ (statusCode : Int) (t : ℚ) (d : Int), statusCode < 0 ∨ 1000 ≤ statusCode →
        (addTraced m statusCode t d).2 = .panic ∧
        (d ≠ 0 → (addTraced m statusCode t d).1 = [.addCount]) ∧
        (d = 0 → (addTraced m statusCode t d).1 = [.lock, .addCount])) := by
  obtain ⟨hb, hf, rfl⟩ := NewCapa_eq_ok bufsize factor m0 h0
  have hw := fresh_WF bufsize factor hb hf
  have hc2 : ∀ c ∈ calls, 0 ≤ c.statusCode ∧ c.statusCode < 1000 :=
    fun c hmem => ⟨(hc c hmem).1, (hc c hmem).2.1⟩
  have hwm := addAllResult_WF (fresh bufsize factor) calls hw
  refine ⟨_, addAll_ok _ calls hw hc2, ?_, ?_⟩
  · intro statusCode t d hs0 hs1
    have htrace := addTraced_fst _ statusCode t d hwm hs0 hs1
    refine ⟨addTraced_snd _ _ _ _, ?_, ?_, ?_⟩
    · intro hd
      rw [if_neg hd] at htrace
      refine ⟨htrace, ?_⟩
      rw [htrace]
      rfl
    · intro hd
      rw [if_pos hd] at htrace
      exact htrace
    · intro hone hd0 hd1
      have hd : d = 0 := by omega
      rw [if_pos hd] at htrace
      exact htrace
  · intro statusCode t d hs
    have htrace := addTraced_out_of_range _ statusCode t d hwm hs
    refine ⟨by rw [htrace], ?_, ?_⟩
    · intro hd
      rw [htrace, if_neg hd]
    · intro hd
      rw [htrace, if_pos hd]

/-- Witness of C14: on `NewCapa(2, 3)` a draw of 2 increments the counters without the
lock. -/
theorem lock_discipline_witness :
    ∃ m, addAll (fresh 2 3) [⟨200, 1 / 10, 0⟩] = .ok m ∧
      (addTraced m 404 (1 / 5) 2).1 = [.addCount, .addStatus 404] := by
  obtain ⟨m, h1, h2⟩ := lock_discipline 2 3 (fresh 2 3) [⟨200, 1 / 10, 0⟩]
    (NewCapa_ok 2 3 (by decide) (by decide) (by decide)) (by decide)
  exact ⟨m, h1, ((h2.1 404 (1 / 5) 2 (by decide) (by decide)).2.1 (by decide)).1⟩

/-! ## The handler wrapper -/

theorem ServeHTTP_returns (accepts : Int → Bool) (h : List HandlerCall) (rw : statusRecorder)
    (hret : ∀ c ∈ h, accepts c.code = true ∨ c.recovers = true) :
    ServeHTTP accepts h rw
      = ({ statusCode := (h.map (fun c => c.code)).getLast?.getD rw.statusCode }, .ok ()) := by
  induction h generalizing rw with
  | nil => rfl
  | cons c rest ih =>
    have hrest : ∀ k ∈ rest, accepts k.code = true ∨ k.recovers = true :=
      fun k hk => hret k (List.mem_cons_of_mem c hk)
    have hlast : ((c :: rest).map (fun c => c.code)).getLast?.getD rw.statusCode
        = (rest.map (fun c => c.code)).getLast?.getD c.code := by
      rw [List.map_cons, List.getLast?_cons]
      rfl
    rw [hlast]
    by_cases ha : accepts c.code = true
    · simp only [ServeHTTP, statusRecorder.WriteHeader, ha, if_true]
      exact ih _ hrest
    · have hrec : c.recovers = true := by
        rcases hret c (List.mem_cons_self c rest) with h1 | h1
        · exact absurd h1 ha
        · exact h1
      simp only [ServeHTTP, statusRecorder.WriteHeader, ha, hrec, if_true]
      exact ih _ hrest

/-- C17, as stated, fails: a handler that calls `WriteHeader(1000)` and returns is not
recorded, `add` panics on the status array; both on a writer that accepts the code and on
one that panics outside `100..999` with a handler that recovers (the recorder stores the
code before the writer sees it). -/
theorem wrapped_request_counterexample :
    ∃ m0, NewCapa 2 1 = .ok m0 ∧
      ServeHTTP (fun _ => true) [⟨1000, false⟩] { statusCode := 200 }
        = ({ statusCode := 1000 }, .ok ()) ∧
      WrapHandleFunc m0 (fun _ => true) [⟨1000, false⟩] (1 / 10) 0 = .panic ∧
      ServeHTTP (fun code => decide (100 ≤ code ∧ code ≤ 999)) [⟨1000, true⟩]
          { statusCode := 200 }
        = ({ statusCode := 1000 }, .ok ()) ∧
      WrapHandleFunc m0 (fun code => decide (100 ≤ code ∧ code ≤ 999)) [⟨1000, true⟩]
        (1 / 10) 0 = .panic := by
  have hpanic : add (fresh 2 1) 1000 (1 / 10) 0 = .panic :=
    add_panic _ 1000 _ 0 (fresh_WF 2 1 (by decide) (by decide)) (Or.inr (by decide))
  have h1 : ServeHTTP (fun _ => true) [⟨1000, false⟩] { statusCode := 200 }
      = ({ statusCode := 1000 }, .ok ()) := rfl
  have h2 : ServeHTTP (fun code => decide (100 ≤ code ∧ code ≤ 999)) [⟨1000, true⟩]
      { statusCode := 200 } = ({ statusCode := 1000 }, .ok ()) := rfl
  refine ⟨fresh 2 1, NewCapa_ok 2 1 (by decide) (by decide) (by decide), h1, ?_, h2, ?_⟩
  · simp only [WrapHandleFunc, h1]
    exact hpanic
  · simp only [WrapHandleFunc, h2]
    exact hpanic

/-- C17, amended: a request served through `WrapHandleFunc` whose handler returns leads
to exactly one `add`, made after the handler, under the code of the handler's last
`WriteHeader` call, or under 200 when it made none; when that code is in `0..999` the
request is recorded exactly once: the total counter and the bucket of that code grow by
one and no other bucket changes.  (Outside `0..999` that `add` panics; when the handler
does not return, nothing is recorded.) -/
theorem wrapped_request_recorded_once (bufsize factor : Int) (m0 : Metrics)
    (calls : List Call) (accepts : Int → Bool) (h : List HandlerCall) (elapsed : ℚ)
    (draw : Int) (h0 : NewCapa bufsize factor = .ok m0)
    (hc : ∀ c ∈ calls, ValidCall factor c)
    (hret : ∀ c ∈ h, accepts c.code = true ∨ c.recovers = true) :
    ∃ m, addAll m0 calls = .ok m ∧
      ServeHTTP accepts h { statusCode := 200 } = ({ statusCode := lastCode h }, .ok ()) ∧
      WrapHandleFunc m accepts h elapsed draw = add m (lastCode h) elapsed draw ∧
      (0 ≤ lastCode h → lastCode h < 1000 →
        ∃ m1, WrapHandleFunc m accepts h elapsed draw = .ok m1 ∧
          m1.count = m.count + 1 ∧
          ∀ code : Int, 0 ≤ code →
            m1.statusCount.getD code.toNat 0
              = m.statusCount.getD code.toNat 0 + (if lastCode h = code then 1 else 0)) ∧
      (lastCode h < 0 ∨ 1000 ≤ lastCode h →
        WrapHandleFunc m accepts h elapsed draw = .panic) ∧
      (∀ h2 : List HandlerCall, (ServeHTTP accepts h2 { statusCode := 200 }).2 = .panic →
        WrapHandleFunc m accepts h2 elapsed draw = .panic) := by
  obtain ⟨hb, hf, rfl⟩ := NewCapa_eq_ok bufsize factor m0 h0
  have hw := fresh_WF bufsize factor hb hf
  have hc2 : ∀ c ∈ calls, 0 ≤ c.statusCode ∧ c.statusCode < 1000 :=
    fun c hmem => ⟨(hc c hmem).1, (hc c hmem).2.1⟩
  have hwm := addAllResult_WF (fresh bufsize factor) calls hw
  have hserve : ServeHTTP accepts h { statusCode := 200 }
      = ({ statusCode := lastCode h }, .ok ()) :=
    ServeHTTP_returns accepts h { statusCode := 200 } hret
  have hwrap : WrapHandleFunc (addAllResult (fresh bufsize factor) calls) accepts h
      elapsed draw
      = add (addAllResult (fresh bufsize factor) calls) (lastCode h) elapsed draw := by
    simp only [WrapHandleFunc, hserve]
  refine ⟨_, addAll_ok _ calls hw hc2, hserve, hwrap, ?_, ?_, ?_⟩
  · intro hlo hhi
    have hlen : lastCode h
        < ((addAllResult (fresh bufsize factor) calls).statusCount.length : Int) := by
      rw [hwm.statusLen]; exact hhi
    refine ⟨addResult (addAllResult (fresh bufsize factor) calls) (lastCode h)
      elapsed draw, ?_, rfl, ?_⟩
    · rw [hwrap]
      exact add_ok _ _ elapsed draw hwm hlo hhi
    · intro code hcode
      exact addResult_statusCount_getD _ _ elapsed draw code hlo hlen hcode
  · intro hout
    rw [hwrap]
    exact add_panic _ _ elapsed draw hwm hout
  · intro h2 hp
    unfold WrapHandleFunc
    dsimp only
    cases hx : ServeHTTP accepts h2 { statusCode := 200 } with
    | mk rw1 r =>
      rw [hx] at hp
      have hr : r = .panic := hp
      subst hr
      rfl

/-- Witness of C17: a handler calling `WriteHeader(404)` then `WriteHeader(500)` on a
writer that accepts every code is recorded under 500. -/
theorem wrapped_request_recorded_once_witness :
    ∃ m, addAll (fresh 2 1) [⟨200, 1 / 10, 0⟩] = .ok m ∧
      WrapHandleFunc m (fun _ => true) [⟨404, false⟩, ⟨500, false⟩] (1 / 5) 0
        = add m 500 (1 / 5) 0 ∧
      ∃ m1, WrapHandleFunc m (fun _ => true) [⟨404, false⟩, ⟨500, false⟩] (1 / 5) 0 = .ok m1 ∧
        m1.count = m.count + 1 := by
  obtain ⟨m, h1, _, h2, h3, _⟩ := wrapped_request_recorded_once 2 1 (fresh 2 1)
    [⟨200, 1 / 10, 0⟩] (fun _ => true) [⟨404, false⟩, ⟨500, false⟩] (1 / 5) 0
    (NewCapa_ok 2 1 (by decide) (by decide) (by decide)) (by decide)
    (fun _ _ => Or.inl rfl)
  obtain ⟨m1, h4, h5, _⟩ := h3 (by decide) (by decide)
  exact ⟨m, h1, h2, m1, h4, h5⟩

end Httpstats
